import Mathlib

/-
  Verification development for the MCPFullDemo repository.

  Shallow embedding of:
  - src/mcp_client/client_streamlit.py  (MCPClient.process_query, the agent loop)
  - src/server/tools/content_tools.py   (extract_main_text and helpers)
  - src/server/tools/research_tools.py  (rank_search_results and helpers)
  - src/server/tools/storage_tools.py   (delete_briefing)

  Conventions:
  - Python strings are Lean String/List Char; the development restricts
    attention to ASCII text, where Python's lower/upper/whitespace
    predicates agree with Lean's.
  - Python float arithmetic in scoring/thresholds is embedded as exact
    rational arithmetic (the scores are sums of small rationals).
  - The externally-provided collaborators (the Anthropic completion API and
    the MCP tool transport) are modelled as an explicit environment: a
    script of model responses and a deterministic tool-call oracle.
-/

set_option maxHeartbeats 1000000
set_option maxRecDepth 8000

namespace MCPDemo

/- ============================================================
   Part 1: embedding of MCPClient.process_query
   (src/mcp_client/client_streamlit.py, lines 104-215)
   ============================================================ -/

/-- One content block of a model response: a text segment or a tool-use
request carrying an id, a tool name and (opaque) arguments. -/
inductive ContentBlock
  | text (s : String)
  | toolUse (id : String) (name : String) (args : String)
deriving DecidableEq

/-- Message roles appearing in the conversation list of process_query. -/
inductive Role
  | user
  | assistant
  | system
deriving DecidableEq

/-- A tool_result entry as built by process_query:
`{"type": "tool_result", "tool_use_id": ..., "content": ...}`. -/
structure ToolResultBlock where
  tool_use_id : String
  content : String
deriving DecidableEq

/-- Message content: a plain string (user query / system guidance), the
assistant content blocks, or a batch of tool results. -/
inductive MsgContent
  | str (s : String)
  | blocks (bs : List ContentBlock)
  | toolResults (rs : List ToolResultBlock)
deriving DecidableEq

/-- One entry of the `messages` list of process_query. -/
structure Message where
  role : Role
  content : MsgContent
deriving DecidableEq

/-- The `result.content` of an MCP call_tool result: either a list of parts
(each already rendered to text, mirroring `getattr(item, "text", str(item))`)
or a single non-list value rendered by `str(...)`. -/
inductive ContentValue
  | parts (items : List String)
  | raw (s : String)
deriving DecidableEq

/-- Outcome of one `session.call_tool` invocation: the call may raise an
exception, or return a result value together with the MCP error flag
(`isError`); process_query never inspects the flag. -/
inductive ToolOutcome
  | raises (msg : String)
  | returns (value : ContentValue) (isError : Bool)
deriving DecidableEq

/-- The external collaborators of one process_query run: the contents of
skills.md (interpolated into the base system prompt), the scripted model
response for each successive completion call, and the tool-call oracle. -/
structure Env where
  skills : String
  script : Nat → List ContentBlock
  callTool : String → String → ToolOutcome

/-- Failures that can escape process_query: calling it with no active
session (the Python code dereferences `self.session = None`), or an
exception raised by a tool call (which is not caught inside the loop). -/
inductive PyError
  | notConnected
  | toolRaised (msg : String)
deriving DecidableEq

/-- Design constant bounding the number of model-call rounds. -/
def MAX_TOOL_ROUNDS : Nat := 12

/-- The directive appended to the system prompt once briefing_saved is true
(client_streamlit.py line 138). -/
def SAVED_DIRECTIVE : String :=
  "\n\nThe briefing has already been saved successfully. Do NOT call any tools. Answer now."

/-- The system-role guidance message appended to the history after the tool
results once briefing_saved is true (client_streamlit.py lines 205-213). -/
def SAVED_GUIDANCE : String :=
  "The briefing has been successfully saved. Do NOT call any more tools. Provide the final user-facing response now, including the saved briefing title and id if available."

/-- BASE_SYSTEM_PROMPT of client_streamlit.py (lines 49-62): the f-string
with skills.md interpolated, after the trailing `.strip()` (the literal
begins and ends with non-whitespace, so only the outer newlines of the
triple-quoted string are removed). -/
def BASE_SYSTEM_PROMPT (skills : String) : String :=
  "You are an MCP tool-using assistant.\n\nBelow is the project\x27s Skills Contract (skills.md). Follow it strictly when deciding which tools to call and when to stop.\n\n--- BEGIN skills.md ---\n" ++ skills ++ "\n--- END skills.md ---\n\nHard rules:\n- Never call the same tool repeatedly unless the previous attempt failed.\n- save_briefing is a side-effect tool: call it at most once per user request.\n- After save_briefing succeeds, stop calling tools and produce the final user-facing response."

/-- The `[c for c in assistant_content if c.type == "tool_use"]` filter,
projected to (id, name, input). -/
def toolUseTriples (bs : List ContentBlock) : List (String × String × String) :=
  bs.filterMap fun c => match c with
    | .toolUse i n a => some (i, n, a)
    | _ => none

/-- The `[c for c in assistant_content if c.type == "text"]` filter,
projected to the text payloads appended to final_text_parts. -/
def textBlocks (bs : List ContentBlock) : List String :=
  bs.filterMap fun c => match c with
    | .text s => some s
    | _ => none

/-- Normalization of a tool result into a string (lines 181-187): a list of
parts is joined with newlines, anything else is stringified directly. -/
def toolOutputStr : ContentValue → String
  | .parts items => String.intercalate "\n" items
  | .raw s => s

/-- `messages = [m for m in messages if m.get("role") != "system"]`
(line 140). -/
def stripSystem (msgs : List Message) : List Message :=
  msgs.filter fun m => m.role != Role.system

/-- Python `str.isspace` characters in the ASCII range, as stripped by
`str.strip()`. -/
def isPySpace (c : Char) : Bool :=
  c = ' ' || c = '\t' || c = '\n' || c = '\r' || c = '\x0b' || c = '\x0c'

/-- Python `str.strip()` on a character list: drop whitespace from the
front, then from the back. -/
def pyStripL (cs : List Char) : List Char :=
  List.rdropWhile isPySpace (cs.dropWhile isPySpace)

/-- Python `str.strip()`. -/
def pyStrip (s : String) : String :=
  String.mk (pyStripL s.toList)

/-- Python `"\n".join(parts).strip()` as used for the final answer
(lines 132 and 215). -/
def joinStrip (parts : List String) : String :=
  pyStrip (String.intercalate "\n" parts)

/-- Checker: the character list contains no two adjacent spaces (the shape
left by the space/tab collapsing of the whitespace normalizer). -/
def noDoubleSpaceB : List Char → Bool
  | a :: b :: rest => !(a = ' ' && b = ' ') && noDoubleSpaceB (b :: rest)
  | _ => true

/-- Checker: the character list contains no three adjacent newlines (the
shape left by the newline clamping of the whitespace normalizer). -/
def noTripleNLB : List Char → Bool
  | a :: b :: c :: rest => !(a = '\n' && b = '\n' && c = '\n') && noTripleNLB (b :: c :: rest)
  | _ => true

/-- Checker: the list starts with a newline. -/
def startsN : List Char → Bool
  | '\n' :: _ => true
  | _ => false

/-- Checker: the list starts with two newlines. -/
def startsNN : List Char → Bool
  | '\n' :: '\n' :: _ => true
  | _ => false

/-- Shape of a line produced by the split/strip/filter phase of
extract_main_text when applied to normalized text: nonempty, free of
control whitespace and newlines, no double spaces, and stripped at both
ends. -/
def LineOK (ln : List Char) : Prop :=
  ln ≠ [] ∧ '\r' ∉ ln ∧ '\t' ∉ ln ∧ '\n' ∉ ln ∧
  noDoubleSpaceB ln = true ∧
  (∀ x ∈ ln.head?, isPySpace x = false) ∧ (∀ x ∈ ln.getLast?, isPySpace x = false)

/-- Shape of a fixed point of the whitespace normalizer: no carriage
returns or tabs, no double spaces, no triple newlines, and stripped at
both ends. -/
def NormOK (cs : List Char) : Prop :=
  '\r' ∉ cs ∧ '\t' ∉ cs ∧ noDoubleSpaceB cs = true ∧ noTripleNLB cs = true ∧
  (∀ x ∈ cs.head?, isPySpace x = false) ∧ (∀ x ∈ cs.getLast?, isPySpace x = false)

/-- Sequential execution of all tool calls of one round (lines 168-199):
each call either raises (propagating the exception) or returns a value that
is normalized and recorded; briefing_saved is set after a save_briefing
call returns, regardless of the result-level isError flag. -/
def execTools (env : Env) : List (String × String × String) → Bool →
    Except String (List ToolResultBlock × Bool)
  | [], saved => .ok ([], saved)
  | (i, name, args) :: rest, saved =>
    match env.callTool name args with
    | .raises msg => .error msg
    | .returns v _ =>
      let saved1 := if name = "save_briefing" then true else saved
      match execTools env rest saved1 with
      | .error msg => .error msg
      | .ok (rs, s) => .ok (⟨i, toolOutputStr v⟩ :: rs, s)

/-- Instrumentation record of one round of the loop: the state the round
started from, the prompt and history sent to the model, its response, the
messages appended to the history during the round, the tool-result batch
(if the round executed tools without raising), the exception message (if a
tool raised), and the briefing_saved flag after the round. -/
structure RoundLog where
  callIdx : Nat
  savedBefore : Bool
  systemPrompt : String
  messagesSent : List Message
  response : List ContentBlock
  appended : List Message
  toolBatch : Option (List ToolResultBlock)
  raisedMsg : Option String
  savedAfter : Bool
deriving DecidableEq

/-- The system guidance message object (lines 206-213). -/
def savedGuidanceMsg : Message := ⟨Role.system, MsgContent.str SAVED_GUIDANCE⟩

/-- The tool-execution phase of one round (lines 150-213), given the model
response: the messages appended after the assistant message this round, the
tool-result batch (when tools ran without raising), the raised exception
message (if any), and the briefing_saved flag after the round. -/
def roundExec (env : Env) (resp : List ContentBlock) (saved : Bool) :
    List Message × Option (List ToolResultBlock) × Option String × Bool :=
  let asst : Message := ⟨Role.assistant, MsgContent.blocks resp⟩
  let tus := toolUseTriples resp
  if tus.isEmpty then ([asst], none, none, saved)
  else
    match execTools env tus saved with
    | .error msg => ([asst], none, some msg, saved)
    | .ok (rs, saved1) =>
      (asst :: ⟨Role.user, MsgContent.toolResults rs⟩ ::
        (if saved1 then [savedGuidanceMsg] else []), some rs, none, saved1)

/-- One round of the loop body (lines 129-213), recorded as a RoundLog:
build the system prompt, strip system messages, call the model, append the
assistant message, partition its blocks, and (when tools were requested)
execute them all and append the single tool-result batch message, plus the
system guidance message once briefing_saved is true. -/
def mkRoundLog (env : Env) (callIdx : Nat) (saved : Bool) (msgsIn : List Message) :
    RoundLog :=
  let resp := env.script callIdx
  let e := roundExec env resp saved
  { callIdx := callIdx, savedBefore := saved,
    systemPrompt := BASE_SYSTEM_PROMPT env.skills ++ (if saved then SAVED_DIRECTIVE else ""),
    messagesSent := stripSystem msgsIn, response := resp,
    appended := e.1, toolBatch := e.2.1, raisedMsg := e.2.2.1, savedAfter := e.2.2.2 }

/-- Result of one process_query run: the returned string or escaped
exception, the per-round instrumentation log (one entry per model call),
the final final_text_parts, the final messages list, and whether the
round bound tripped. -/
structure RunResult where
  outcome : Except PyError String
  log : List RoundLog
  texts : List String
  finalMessages : List Message
  forcedStop : Bool

/-- The value returned when the round bound trips (lines 130-135). -/
def forcedStopOutput (texts : List String) : String :=
  let partialText := joinStrip texts
  if partialText = "" then
    "Stopped: too many tool-calling rounds (possible infinite loop)."
  else
    partialText ++ "\n\nStopped: too many tool-calling rounds (possible loop)."

/-- The `while True` loop of process_query (lines 128-215). The Python loop
increments `rounds` and exits once `rounds > MAX_TOOL_ROUNDS`; here the
remaining budget `fuel = MAX_TOOL_ROUNDS + 1 - rounds` is passed instead
(so `fuel = 0` is exactly the `rounds > MAX_TOOL_ROUNDS` forced stop),
which makes the recursion structural. `callIdx` counts the model calls
already made (= `rounds - 1` at the top of the Python loop body). -/
def loop (env : Env) : Nat → List Message → List String → Nat → Bool → RunResult
  | 0, msgs, texts, _, _ =>
    { outcome := .ok (forcedStopOutput texts), log := [], texts := texts,
      finalMessages := msgs, forcedStop := true }
  | fuel + 1, msgs, texts, callIdx, saved =>
    let l := mkRoundLog env callIdx saved msgs
    let texts1 := texts ++ textBlocks l.response
    let msgs1 := stripSystem msgs ++ l.appended
    match l.raisedMsg with
    | some msg =>
      { outcome := .error (.toolRaised msg), log := [l], texts := texts1,
        finalMessages := msgs1, forcedStop := false }
    | none =>
      match l.toolBatch with
      | none =>
        { outcome := .ok (joinStrip texts1), log := [l], texts := texts1,
          finalMessages := msgs1, forcedStop := false }
      | some _ =>
        let r := loop env fuel msgs1 texts1 (callIdx + 1) l.savedAfter
        { outcome := r.outcome, log := l :: r.log, texts := r.texts,
          finalMessages := r.finalMessages, forcedStop := r.forcedStop }

/-- The recursive call of `loop` after a round that completed a tool batch:
the stripped history plus this round's appended messages, the extended
text buffer, the next call index, and the updated briefing_saved flag. -/
def loopNext (env : Env) (fuel : Nat) (msgs : List Message) (texts : List String)
    (callIdx : Nat) (saved : Bool) : RunResult :=
  loop env fuel (stripSystem msgs ++ (mkRoundLog env callIdx saved msgs).appended)
    (texts ++ textBlocks (mkRoundLog env callIdx saved msgs).response) (callIdx + 1)
    (mkRoundLog env callIdx saved msgs).savedAfter

/-- MCPClient.process_query (lines 104-215). With no active session the
Python code dereferences `self.session = None` at `self.session.list_tools()`
and fails; this not-connected failure is the notConnected error. Otherwise
the conversation starts with the user query and the loop runs with the full
round budget. -/
def process_query (session : Option Env) (query : String) : RunResult :=
  match session with
  | none =>
    { outcome := .error .notConnected, log := [], texts := [],
      finalMessages := [], forcedStop := false }
  | some env =>
    loop env MAX_TOOL_ROUNDS [⟨Role.user, MsgContent.str query⟩] [] 0 false

/- ============================================================
   Part 2: embedding of content_tools.py
   (extract_main_text and its helpers, lines 18-156)
   ============================================================ -/

/-- The _NOISE_PATTERNS list: each regex is a literal word/phrase wrapped
in word boundaries, embedded as the literal phrase (matched with explicit
word-boundary checks below). -/
def NOISE_PATTERNS : List String :=
  ["cookie", "cookies", "privacy policy", "terms of service", "accept all",
   "subscribe", "sign in", "log in", "newsletter", "share", "facebook",
   "twitter", "instagram", "linkedin", "download our app"]

/-- _MIN_LINE_CHARS. -/
def MIN_LINE_CHARS : Nat := 25

/-- Regex word character (ASCII range of Python \w). -/
def isWordChar (c : Char) : Bool := c.isAlphanum || c = '_'

/-- A position is a word boundary when the adjacent character is absent or
a non-word character. -/
def boundaryOk : Option Char → Bool
  | none => true
  | some c => !isWordChar c

/-- Does `pat` occur at the head of `hay`, with word boundaries on both
sides (`prev` is the character just before the head)? -/
def matchWordAt (prev : Option Char) (hay pat : List Char) : Bool :=
  pat.isPrefixOf hay && boundaryOk prev && boundaryOk (hay.drop pat.length).head?

/-- Scan `hay` for a word-boundary occurrence of `pat`
(re.search of a \b-wrapped literal phrase). -/
def containsWordFrom (pat : List Char) : Option Char → List Char → Bool
  | prev, [] => matchWordAt prev [] pat
  | prev, c :: rest => matchWordAt prev (c :: rest) pat || containsWordFrom pat (some c) rest

/-- Number of occurrences of character `c` (Python str.count for a single
character). -/
def countChar (cs : List Char) (c : Char) : Nat := (cs.filter (· = c)).length

/-- Python `line.endswith((".", "?", "!"))` on the last character. -/
def isSentenceEnd : Option Char → Bool
  | some '.' => true
  | some '?' => true
  | some '!' => true
  | _ => false

/-- The mostly-uppercase test of _looks_like_noise (lines 70-74): ratio of
uppercase letters among letters > 0.85 and length < 120. Python's float
division is embedded as exact rational arithmetic. -/
def upperRatioHigh (line : List Char) : Bool :=
  let letters := line.filter Char.isAlpha
  if letters.isEmpty then false
  else
    let upper := (letters.filter Char.isUpper).length
    decide ((upper : ℚ) / ((max 1 letters.length : Nat) : ℚ) > 85 / 100) &&
      decide (line.length < 120)

/-- _looks_like_noise (lines 56-83), on an (already stripped) line. The
Python pattern loop `if re.search(pat, low) and len(line) < 160: return True`
keeps scanning when a match is too long, but every later match sees the
same length, so it equals: some pattern matches and the length is < 160. -/
def looks_like_noise (cs : List Char) : Bool :=
  let low := cs.map Char.toLower
  if cs.length < MIN_LINE_CHARS then
    !isSentenceEnd cs.getLast?
  else if countChar low '|' ≥ 3 || countChar low '•' ≥ 3 then true
  else if upperRatioHigh cs then true
  else if (NOISE_PATTERNS.any fun pat => containsWordFrom pat.toList none low) &&
      cs.length < 160 then true
  else false

/-- The two `replace` calls of _normalize_whitespace: "\r\n" becomes "\n",
then any remaining "\r" becomes "\n". -/
def fixCR : List Char → List Char
  | [] => []
  | '\r' :: '\n' :: rest => '\n' :: fixCR rest
  | '\r' :: rest => '\n' :: fixCR rest
  | c :: rest => c :: fixCR rest

/-- `re.sub(r"[ \t]+", " ", text)`: every maximal run of spaces/tabs
becomes one space. The Bool argument records whether the previous character
was part of such a run. -/
def collapseSTGo : List Char → Bool → List Char
  | [], _ => []
  | c :: rest, prevST =>
    if c = ' ' || c = '\t' then
      if prevST then collapseSTGo rest true
      else ' ' :: collapseSTGo rest true
    else c :: collapseSTGo rest false

/-- `re.sub(r"\n{3,}", "\n\n", text)`: every run of three or more newlines
becomes two. The counter records how many newlines of the current run have
been emitted (capped at 2). -/
def clampNLGo : List Char → Nat → List Char
  | [], _ => []
  | c :: rest, k =>
    if c = '\n' then
      if k ≥ 2 then clampNLGo rest k
      else '\n' :: clampNLGo rest (k + 1)
    else c :: clampNLGo rest 0

/-- _normalize_whitespace (lines 40-46) on a character list. -/
def normalizeWsL (cs : List Char) : List Char :=
  pyStripL (clampNLGo (collapseSTGo (fixCR cs) false) 0)

/-- Generic split on a character predicate, keeping empty groups
(Python str.split with an explicit separator splits like this on each
separator occurrence). -/
def splitPred (p : Char → Bool) : List Char → List (List Char)
  | [] => [[]]
  | c :: rest =>
    if p c then [] :: splitPred p rest
    else
      match splitPred p rest with
      | [] => [[c]]
      | g :: gs => (c :: g) :: gs

/-- _split_lines (lines 49-53): split on "\n", strip each line, drop the
empty ones. -/
def extractLines (cs : List Char) : List (List Char) :=
  ((splitPred (fun c => c = '\n') cs).map pyStripL).filter (fun g => !g.isEmpty)

/-- Python `sep.join(parts)` on character lists. -/
def joinSep (sep : List Char) : List (List Char) → List Char
  | [] => []
  | [g] => g
  | g :: gs => g ++ sep ++ joinSep sep gs

/-- Lines 131-135 of extract_main_text: filter noise lines and rebuild with
blank-line separation, stripping the result. -/
def joinFiltered (cs : List Char) : List Char :=
  pyStripL (joinSep ['\n', '\n'] ((extractLines cs).filter (fun ln => !looks_like_noise ln)))

/-- Python `" ".join(text.split())` (the keep_paragraphs=False branch):
split on whitespace runs, join with single spaces. -/
def joinWords (cs : List Char) : List Char :=
  joinSep [' '] ((splitPred isPySpace cs).filter (fun g => !g.isEmpty))

/-- Python `cut.rfind(pat)`: the greatest index at which `pat` occurs,
or -1 when it does not occur. -/
def rfindSub (cs pat : List Char) : Int :=
  match ((List.range (cs.length + 1)).filter fun i => pat.isPrefixOf (cs.drop i)).getLast? with
  | some i => (i : Int)
  | none => -1

/-- _truncate_safely (lines 86-95). The float comparison
`last_break > max_chars * 0.6` is embedded as the exact rational
comparison 5 * last_break > 3 * max_chars. -/
def truncate_safely (cs : List Char) (max_chars : Nat) : List Char :=
  if max_chars = 0 || cs.length ≤ max_chars then cs
  else
    let cut := cs.take max_chars
    let lastBreak :=
      max (max (rfindSub cut ['\n', '\n']) (rfindSub cut ['.', ' ']))
        (max (rfindSub cut ['!', ' ']) (rfindSub cut ['?', ' ']))
    let cut := if lastBreak * 5 > (max_chars : Int) * 3 then cut.take (lastBreak + 1).toNat else cut
    pyStripL cut ++ "\n\n...[truncated]".toList

/-- Result dictionary of extract_main_text: the error shape, the
all-filtered-out shape (clean_text "", length 0, plus a note), and the
normal shape. -/
inductive ExtractResult
  | err (msg : String)
  | emptyNote (removed_noise : Bool)
  | ok (clean_text : String) (length : Nat) (removed_noise : Bool)
      (kept_paragraphs : Bool) (max_chars : Nat)
deriving DecidableEq

/-- The max_chars clamp of extract_main_text (lines 123-127). -/
def clampMaxChars (mc : Int) : Nat :=
  if mc < 500 then 500 else if mc > 200000 then 200000 else mc.toNat

/-- The text produced by extract_main_text just before truncation, for the
keep_paragraphs=True path: normalization followed (when remove_noise) by
the line filter. -/
def preClean (content : String) (remove_noise : Bool) : List Char :=
  let t := normalizeWsL content.toList
  if remove_noise then joinFiltered t else t

/-- extract_main_text (lines 101-156). -/
def extract_main_text (content : String) (max_chars : Int)
    (keep_paragraphs remove_noise : Bool) : ExtractResult :=
  if pyStripL content.toList = [] then .err "content must be a non-empty string"
  else
    let mc := clampMaxChars max_chars
    let text := preClean content remove_noise
    if text = [] then .emptyNote remove_noise
    else
      let text := if keep_paragraphs then text else joinWords text
      let text := truncate_safely text mc
      .ok (String.mk text) text.length remove_noise keep_paragraphs mc

/- ============================================================
   Part 3: embedding of research_tools.py
   (rank_search_results and its helpers, lines 18-167)
   ============================================================ -/

/-- _TRUSTED_TLDS. -/
def TRUSTED_TLDS : List String := [".gov", ".edu"]

/-- _TRUSTED_DOMAINS. -/
def TRUSTED_DOMAINS : List String :=
  ["weather.gov", "noaa.gov", "nws.noaa.gov", "cdc.gov", "who.int"]

/-- _LOW_QUALITY_HINTS. -/
def LOW_QUALITY_HINTS : List String :=
  ["pinterest.", "facebook.", "instagram.", "tiktok.", "x.com", "twitter."]

/-- URL-path hints for the article-content boost (line 138). -/
def ARTICLE_HINTS : List String :=
  ["/news", "/article", "/blog", "/press", "/alerts", "/advisory"]

/-- Occurrence of `nee` as a contiguous run of `hay`. -/
def listContainsSub : List Char → List Char → Bool
  | [], nee => nee.isEmpty
  | c :: rest, nee => nee.isPrefixOf (c :: rest) || listContainsSub rest nee

/-- Python `needle in haystack` substring test. -/
def strContainsSub (hay nee : String) : Bool := listContainsSub hay.toList nee.toList

/-- Python `s.endswith(t)`. -/
def strEndsWithB (s t : String) : Bool := List.isPrefixOf t.toList.reverse s.toList.reverse

/-- Python `s.lower()` on the character list of a string. -/
def lowerL (s : String) : List Char := s.toList.map Char.toLower

/-- _tokenize (lines 37-41): lowercase, replace every character outside
[a-z0-9 whitespace] by a space, split on whitespace, keep tokens of length
at least 3. -/
def tokenize (text : String) : List String :=
  let low := text.toList.map Char.toLower
  let subbed := low.map fun c =>
    if (decide ('a' ≤ c) && decide (c ≤ 'z')) ||
        (decide ('0' ≤ c) && decide (c ≤ '9')) || isPySpace c then c else ' '
  (((splitPred isPySpace subbed).filter (fun g => !g.isEmpty)).map String.mk).filter
    (fun t => t.length ≥ 3)

/-- Scheme characters of a URL (RFC 3986, as accepted by urllib.parse). -/
def isSchemeChar (c : Char) : Bool := c.isAlpha || c.isDigit || c = '+' || c = '-' || c = '.'

/-- Drop a leading "scheme:" from a URL when present. Modelled from the
behavior of urllib.parse.urlparse (an external standard-library function)
on absolute URLs. -/
def dropScheme (cs : List Char) : List Char :=
  match List.findIdx? (fun c => c = ':') cs with
  | none => cs
  | some i =>
    match cs.take i with
    | [] => cs
    | c :: rest => if c.isAlpha && rest.all isSchemeChar then cs.drop (i + 1) else cs

/-- The netloc of a URL: the text between a leading "//" (after the scheme)
and the next "/", "?" or "#"; empty when the URL has no "//" authority.
Modelled from urllib.parse.urlparse. -/
def netlocOf (cs : List Char) : List Char :=
  match dropScheme cs with
  | '/' :: '/' :: r => r.takeWhile (fun c => c != '/' && c != '?' && c != '#')
  | _ => []

/-- _domain (lines 44-48): `urlparse(url).netloc.lower()` (urlparse does
not raise on strings, so the except branch is dead). -/
def domain (url : String) : String :=
  String.mk ((netlocOf url.toList).map Char.toLower)

/-- _tld_boost (lines 51-55). Scores are Python floats, embedded as exact
rationals. -/
def tld_boost (dom : String) : ℚ :=
  if TRUSTED_TLDS.any (fun t => strEndsWithB dom t) then 2 else 0

/-- _trusted_domain_boost (lines 58-62). -/
def trusted_domain_boost (dom : String) : ℚ :=
  if TRUSTED_DOMAINS.any (fun t => strContainsSub dom t) then 5 / 2 else 0

/-- _low_quality_penalty (lines 65-69). -/
def low_quality_penalty (dom : String) : ℚ :=
  if LOW_QUALITY_HINTS.any (fun h => strContainsSub dom h) then -2 else 0

/-- _keyword_overlap_score (lines 72-77): fraction of goal tokens present
among the tokens of `text` (hay membership is set membership; duplicate
goal tokens are each counted). -/
def keyword_overlap_score (goalTokens : List String) (text : String) : ℚ :=
  if goalTokens = [] then 0
  else
    let hay := tokenize text
    let overlap := (goalTokens.filter (fun t => hay.contains t)).length
    (overlap : ℚ) / ((max 1 goalTokens.length : Nat) : ℚ)

/-- The article-like-path boost (lines 137-139): `p in url.lower()`. -/
def articleBoost (url : String) : ℚ :=
  if ARTICLE_HINTS.any (fun p => listContainsSub (lowerL url) p.toList) then 3 / 10 else 0

/-- Round-to-nearest on an exact rational (half away from floor), i.e.
the floor of q + 1/2 computed on the numerator and denominator. -/
def pyRound (q : ℚ) : ℤ := Int.fdiv (2 * q.num + (q.den : ℤ)) (2 * (q.den : ℤ))

/-- Python `round(x, 4)`, embedded as rounding the exact rational to a
multiple of 1/10000 (Python rounds the nearest-double value half-to-even;
the two agree except on exact 0.00005 ties). -/
def round4 (q : ℚ) : ℚ := ((pyRound (q * 10000) : ℤ) : ℚ) / 10000

/-- One input search result: {title, url, snippet}, each defaulted to ""
when absent. -/
structure SearchResult where
  title : String
  url : String
  snippet : String
deriving DecidableEq

/-- One scored entry as built in lines 141-151. -/
structure ScoredResult where
  rank : Nat
  score : ℚ
  title : String
  url : String
  snippet : String
  domain : String
  original_index : Nat
deriving DecidableEq

/-- The score computation of one result (lines 122-151), already stripped
and with a nonempty URL. -/
def scoreResult (goalTokens : List String) (prefer_official : Bool) (idx : Nat)
    (title url snippet : String) : ScoredResult :=
  let dom := domain url
  let s1 := 3 * keyword_overlap_score goalTokens title +
    2 * keyword_overlap_score goalTokens snippet
  let s2 := if prefer_official then s1 + tld_boost dom + trusted_domain_boost dom else s1
  let s3 := s2 + low_quality_penalty dom
  let s4 := s3 + articleBoost url
  { rank := 0, score := round4 s4, title := title, url := url, snippet := snippet,
    domain := dom, original_index := idx }

/-- Stable insertion into a descending-by-score list: an element is placed
before every strictly smaller score and after every earlier element of
greater-or-equal score. -/
def insertByScore (x : ScoredResult) : List ScoredResult → List ScoredResult
  | [] => [x]
  | y :: ys => if x.score ≥ y.score then x :: y :: ys else y :: insertByScore x ys

/-- Python `scored.sort(key=lambda x: x["score"], reverse=True)` is a
stable descending sort; a stable sort's output is determined by the key
ordering and the input order, so it is embedded as stable insertion sort. -/
def sortByScoreDesc : List ScoredResult → List ScoredResult
  | [] => []
  | x :: xs => insertByScore x (sortByScoreDesc xs)

/-- Return shape of rank_search_results. -/
structure RankOutput where
  goal : String
  top_k : Nat
  top_urls : List String
  ranked : List ScoredResult
  total_scored : Nat
deriving DecidableEq

/-- rank_search_results returns either the error dict or the output dict. -/
inductive RankResult
  | err (msg : String)
  | ok (out : RankOutput)
deriving DecidableEq

/-- The scored list before sorting (lines 112-151): enumerate the inputs,
strip the fields, skip entries with an empty URL. -/
def scoredEntries (results : List SearchResult) (goalTokens : List String)
    (prefer_official : Bool) : List ScoredResult :=
  results.enum.filterMap fun p =>
    let url := pyStrip p.2.url
    let title := pyStrip p.2.title
    let snippet := pyStrip p.2.snippet
    if url = "" then none
    else some (scoreResult goalTokens prefer_official p.1 title url snippet)

/-- rank_search_results (lines 84-167). -/
def rank_search_results (results : List SearchResult) (goal : String)
    (top_k : Int) (prefer_official : Bool) : RankResult :=
  if results.isEmpty then .err "results must be a non-empty list"
  else
    let goalTokens := tokenize goal
    let k : Nat := if top_k < 1 then 1 else if top_k > 20 then 20 else top_k.toNat
    let scored := scoredEntries results goalTokens prefer_official
    let sorted := sortByScoreDesc scored
    let ranked := sorted.enum.map fun p => { p.2 with rank := p.1 + 1 }
    let top := ranked.take k
    .ok { goal := goal, top_k := k, top_urls := top.map (fun s => s.url),
          ranked := top, total_scored := scored.length }

/- ============================================================
   Part 4: embedding of storage_tools.py (delete_briefing,
   lines 190-218)
   ============================================================ -/

/-- One entry of the parsed `db["briefings"]` array: a JSON object with an
optional "id" value and an opaque payload for its other fields, or a
non-object value (tolerated by the storage code). -/
inductive StoreEntry
  | dict (idVal : Option String) (payload : String)
  | nonDict (payload : String)
deriving DecidableEq

/-- `isinstance(b, dict) and b.get("id") == id`. -/
def entryMatches (b : StoreEntry) (id : String) : Bool :=
  match b with
  | .dict (some i) _ => i == id
  | .dict none _ => false
  | .nonDict _ => false

/-- Return shape of delete_briefing: `{deleted, id}` or `{error}`. -/
inductive DeleteResult
  | err (msg : String)
  | ok (deleted : Bool) (id : String)
deriving DecidableEq

/-- delete_briefing (lines 191-218) as a state transformer on the parsed
briefings list (a corrupt or missing file reads as the empty list, and the
atomic write is modelled as the returned store value; a write that raises
returns the error dict and is outside this state model). -/
def delete_briefing (id : String) (store : List StoreEntry) :
    List StoreEntry × DeleteResult :=
  if pyStrip id = "" then (store, .err "id must be a non-empty string")
  else
    let newList := store.filter fun b => !entryMatches b id
    (newList, .ok (newList.length != store.length) id)

/- ============================================================
   Part 4b: concrete scripted environments used to instantiate the
   theorems, and the specification-side score formula
   ============================================================ -/

/-- Score of one search result, written from the specification text:
+3 × title-keyword-overlap-ratio, +2 × snippet-keyword-overlap-ratio,
+2.0 if the domain ends in a trusted TLD and +2.5 if it matches the
trusted-domain list (both only when prefer_official), −2.0 if it matches
the low-quality list, +0.3 if the URL path looks article-like. Kept as a
separate definition to compare the implementation against the
specification wording. -/
def specScore (goalTokens : List String) (prefer_official : Bool)
    (title url snippet : String) : ℚ :=
  3 * keyword_overlap_score goalTokens title
    + 2 * keyword_overlap_score goalTokens snippet
    + (if prefer_official && TRUSTED_TLDS.any (fun t => strEndsWithB (domain url) t)
        then 2 else 0)
    + (if prefer_official && TRUSTED_DOMAINS.any (fun t => strContainsSub (domain url) t)
        then 5 / 2 else 0)
    + (if LOW_QUALITY_HINTS.any (fun h => strContainsSub (domain url) h) then -2 else 0)
    + (if ARTICLE_HINTS.any (fun p => listContainsSub (lowerL url) p.toList) then 3 / 10 else 0)

/-- The order produced by the stable descending sort of
rank_search_results: strictly greater score first, and among equal scores
the earlier original index first. -/
def rankOrder (a b : ScoredResult) : Prop :=
  b.score < a.score ∨ (a.score = b.score ∧ a.original_index < b.original_index)

/-- Scripted environment: the model requests a tool every round and also
emits a text block, so the round bound trips with accumulated text. -/
def envC1 : Env :=
  { skills := ""
    script := fun _ => [.text "t", .toolUse "tid" "get_weather" "wargs"]
    callTool := fun _ _ => .returns (.raw "ok") false }

/-- Scripted environment: round one requests two tools, round two answers
with plain text. -/
def envC2 : Env :=
  { skills := ""
    script := fun n =>
      if n = 0 then
        [.text "checking", .toolUse "t1" "web_search" "qargs", .toolUse "t2" "geocode" "gargs"]
      else [.text "done"]
    callTool := fun name _ => .returns (.parts ["r-" ++ name]) false }

/-- Scripted environment: save_briefing is requested in round one and the
tool returns an error-signaled result (isError = true). -/
def envC3 : Env :=
  { skills := ""
    script := fun n => if n = 0 then [.toolUse "t1" "save_briefing" "sargs"] else [.text "done"]
    callTool := fun _ _ => .returns (.raw "error: disk full") true }

/-- Scripted environment: the only requested tool raises an exception. -/
def envC4 : Env :=
  { skills := ""
    script := fun _ => [.toolUse "t1" "web_scrape" "uargs"]
    callTool := fun _ _ => .raises "boom" }

/-- Scripted environment: the first model response is text only. -/
def envC6 : Env :=
  { skills := ""
    script := fun n => if n = 0 then [.text "hello", .text "world"] else []
    callTool := fun _ _ => .returns (.raw "ok") false }

/-- Scripted environment: save_briefing succeeds in round one, the model
answers in round two. -/
def envC7 : Env :=
  { skills := ""
    script := fun n => if n = 0 then [.toolUse "t1" "save_briefing" "sargs"] else [.text "saved"]
    callTool := fun _ _ => .returns (.raw "saved id 1") false }

/- ============================================================
   Part 5: lemmas about the agent loop
   ============================================================ -/

theorem execTools_ok_ids (env : Env) :
    ∀ (tus : List (String × String × String)) (saved : Bool)
      (rs : List ToolResultBlock) (s1 : Bool),
      execTools env tus saved = .ok (rs, s1) →
      rs.map (fun r => r.tool_use_id) = tus.map (fun t => t.1) := by
  intro tus
  induction tus with
  | nil =>
    intro saved rs s1 h
    simp only [execTools, Except.ok.injEq, Prod.mk.injEq] at h
    simp [← h.1]
  | cons t rest ih =>
    obtain ⟨i, name, args⟩ := t
    intro saved rs s1 h
    simp only [execTools] at h
    rcases hc : env.callTool name args with msg | ⟨v, e⟩ <;> rw [hc] at h
    · simp at h
    · rcases hrec : execTools env rest (if name = "save_briefing" then true else saved) with
        msg2 | ⟨rs2, s2⟩ <;> rw [hrec] at h
      · simp at h
      · simp only [Except.ok.injEq, Prod.mk.injEq] at h
        obtain ⟨h1, _⟩ := h
        subst h1
        simpa using ih _ _ _ hrec

theorem execTools_ok_zip (env : Env) :
    ∀ (tus : List (String × String × String)) (saved : Bool)
      (rs : List ToolResultBlock) (s1 : Bool),
      execTools env tus saved = .ok (rs, s1) →
      ∀ p ∈ tus.zip rs, ∃ v e, env.callTool p.1.2.1 p.1.2.2 = .returns v e ∧
        p.2 = ⟨p.1.1, toolOutputStr v⟩ := by
  intro tus
  induction tus with
  | nil => intro saved rs s1 _ p hp; simp at hp
  | cons t rest ih =>
    obtain ⟨i, name, args⟩ := t
    intro saved rs s1 h p hp
    simp only [execTools] at h
    rcases hc : env.callTool name args with msg | ⟨v, e⟩ <;> rw [hc] at h
    · simp at h
    · rcases hrec : execTools env rest (if name = "save_briefing" then true else saved) with
        msg2 | ⟨rs2, s2⟩ <;> rw [hrec] at h
      · simp at h
      · simp only [Except.ok.injEq, Prod.mk.injEq] at h
        obtain ⟨h1, _⟩ := h
        subst h1
        rcases List.mem_cons.mp hp with hq | hq
        · subst hq
          exact ⟨v, e, hc, rfl⟩
        · exact ih _ _ _ hrec p hq

theorem execTools_ok_saved (env : Env) :
    ∀ (tus : List (String × String × String)) (saved : Bool)
      (rs : List ToolResultBlock) (s1 : Bool),
      execTools env tus saved = .ok (rs, s1) →
      s1 = (saved || tus.any fun t => t.2.1 == "save_briefing") := by
  intro tus
  induction tus with
  | nil =>
    intro saved rs s1 h
    simp only [execTools, Except.ok.injEq, Prod.mk.injEq] at h
    simp [← h.2]
  | cons t rest ih =>
    obtain ⟨i, name, args⟩ := t
    intro saved rs s1 h
    simp only [execTools] at h
    rcases hc : env.callTool name args with msg | ⟨v, e⟩ <;> rw [hc] at h
    · simp at h
    · rcases hrec : execTools env rest (if name = "save_briefing" then true else saved) with
        msg2 | ⟨rs2, s2⟩ <;> rw [hrec] at h
      · simp at h
      · simp only [Except.ok.injEq, Prod.mk.injEq] at h
        obtain ⟨_, h2⟩ := h
        subst h2
        by_cases hn : name = "save_briefing"
        · simp only [hn, if_pos rfl] at hrec
          simp [hn, ih _ _ _ hrec]
        · rw [if_neg hn] at hrec
          have : (name == "save_briefing") = false := by
            simpa using hn
          simp [this, ih _ _ _ hrec, Bool.or_assoc]

theorem mkRoundLog_savedBefore (env : Env) (c : Nat) (s : Bool) (m : List Message) :
    (mkRoundLog env c s m).savedBefore = s := rfl

theorem mkRoundLog_response (env : Env) (c : Nat) (s : Bool) (m : List Message) :
    (mkRoundLog env c s m).response = env.script c := rfl

theorem mkRoundLog_callIdx (env : Env) (c : Nat) (s : Bool) (m : List Message) :
    (mkRoundLog env c s m).callIdx = c := rfl

theorem mkRoundLog_messagesSent (env : Env) (c : Nat) (s : Bool) (m : List Message) :
    (mkRoundLog env c s m).messagesSent = stripSystem m := rfl

theorem mkRoundLog_systemPrompt (env : Env) (c : Nat) (s : Bool) (m : List Message) :
    (mkRoundLog env c s m).systemPrompt =
      BASE_SYSTEM_PROMPT env.skills ++ (if s then SAVED_DIRECTIVE else "") := rfl

/-- Case analysis of the tool-execution phase: no tool requests, a raising
tool call, or a completed tool batch. -/
theorem roundExec_spec (env : Env) (resp : List ContentBlock) (saved : Bool) :
    (toolUseTriples resp = [] ∧
      roundExec env resp saved =
        ([⟨Role.assistant, MsgContent.blocks resp⟩], none, none, saved)) ∨
    (∃ msg, toolUseTriples resp ≠ [] ∧
      execTools env (toolUseTriples resp) saved = .error msg ∧
      roundExec env resp saved =
        ([⟨Role.assistant, MsgContent.blocks resp⟩], none, some msg, saved)) ∨
    (∃ rs s1, toolUseTriples resp ≠ [] ∧
      execTools env (toolUseTriples resp) saved = .ok (rs, s1) ∧
      roundExec env resp saved =
        (⟨Role.assistant, MsgContent.blocks resp⟩ ::
          ⟨Role.user, MsgContent.toolResults rs⟩ ::
          (if s1 then [savedGuidanceMsg] else []), some rs, none, s1)) := by
  unfold roundExec
  by_cases he : (toolUseTriples resp).isEmpty
  · left
    rw [if_pos he]
    exact ⟨List.isEmpty_iff.mp he, rfl⟩
  · rw [if_neg he]
    have hne : toolUseTriples resp ≠ [] := by
      simpa [List.isEmpty_iff] using he
    rcases hex : execTools env (toolUseTriples resp) saved with msg | ⟨rs, s1⟩
    · right; left
      exact ⟨msg, hne, rfl, rfl⟩
    · right; right
      exact ⟨rs, s1, hne, rfl, rfl⟩

/-- Case analysis of one round: no tool requests, a raising tool call, or a
completed tool batch. -/
theorem mkRoundLog_cases (env : Env) (c : Nat) (s : Bool) (m : List Message) :
    (toolUseTriples (env.script c) = [] ∧ (mkRoundLog env c s m).toolBatch = none ∧
      (mkRoundLog env c s m).raisedMsg = none ∧
      (mkRoundLog env c s m).appended =
        [⟨Role.assistant, MsgContent.blocks (env.script c)⟩] ∧
      (mkRoundLog env c s m).savedAfter = s) ∨
    (∃ msg, toolUseTriples (env.script c) ≠ [] ∧
      execTools env (toolUseTriples (env.script c)) s = .error msg ∧
      (mkRoundLog env c s m).toolBatch = none ∧
      (mkRoundLog env c s m).raisedMsg = some msg ∧
      (mkRoundLog env c s m).appended =
        [⟨Role.assistant, MsgContent.blocks (env.script c)⟩] ∧
      (mkRoundLog env c s m).savedAfter = s) ∨
    (∃ rs s1, toolUseTriples (env.script c) ≠ [] ∧
      execTools env (toolUseTriples (env.script c)) s = .ok (rs, s1) ∧
      (mkRoundLog env c s m).toolBatch = some rs ∧
      (mkRoundLog env c s m).raisedMsg = none ∧
      (mkRoundLog env c s m).savedAfter = s1 ∧
      (mkRoundLog env c s m).appended =
        ⟨Role.assistant, MsgContent.blocks (env.script c)⟩ ::
          ⟨Role.user, MsgContent.toolResults rs⟩ ::
          (if s1 then [savedGuidanceMsg] else [])) := by
  have hfields : (mkRoundLog env c s m).appended = (roundExec env (env.script c) s).1 ∧
      (mkRoundLog env c s m).toolBatch = (roundExec env (env.script c) s).2.1 ∧
      (mkRoundLog env c s m).raisedMsg = (roundExec env (env.script c) s).2.2.1 ∧
      (mkRoundLog env c s m).savedAfter = (roundExec env (env.script c) s).2.2.2 :=
    ⟨rfl, rfl, rfl, rfl⟩
  obtain ⟨ha, hb, hr, hs⟩ := hfields
  rcases roundExec_spec env (env.script c) s with ⟨h1, h2⟩ | ⟨msg, h1, h1b, h2⟩ |
    ⟨rs, s1, h1, h1b, h2⟩
  · left
    rw [h2] at ha hb hr hs
    exact ⟨h1, hb, hr, ha, hs⟩
  · right; left
    rw [h2] at ha hb hr hs
    exact ⟨msg, h1, h1b, hb, hr, ha, hs⟩
  · right; right
    rw [h2] at ha hb hr hs
    exact ⟨rs, s1, h1, h1b, hb, hr, hs, ha⟩

/-- Once the briefing_saved flag is true at the start of a round, it is
still true after the round. -/
theorem mkRoundLog_saved_mono (env : Env) (c : Nat) (m : List Message) :
    (mkRoundLog env c true m).savedAfter = true := by
  rcases mkRoundLog_cases env c true m with ⟨_, _, _, _, h⟩ | ⟨msg, _, _, _, _, _, h⟩ |
    ⟨rs, s1, _, hex, _, _, h, _⟩
  · exact h
  · exact h
  · rw [h, execTools_ok_saved env _ _ _ _ hex]
    rfl

/-- Structural characterization of one unfolding of the loop: the round
either raised (terminal error), requested no tools (terminal success), or
completed a tool batch and recursed. -/
theorem loop_succ_spec (env : Env) (fuel : Nat) (msgs : List Message) (texts : List String)
    (callIdx : Nat) (saved : Bool) :
    (∃ msg, (mkRoundLog env callIdx saved msgs).raisedMsg = some msg ∧
      loop env (fuel + 1) msgs texts callIdx saved =
        { outcome := .error (.toolRaised msg), log := [mkRoundLog env callIdx saved msgs],
          texts := texts ++ textBlocks (mkRoundLog env callIdx saved msgs).response,
          finalMessages := stripSystem msgs ++ (mkRoundLog env callIdx saved msgs).appended,
          forcedStop := false }) ∨
    ((mkRoundLog env callIdx saved msgs).raisedMsg = none ∧
      (mkRoundLog env callIdx saved msgs).toolBatch = none ∧
      loop env (fuel + 1) msgs texts callIdx saved =
        { outcome := .ok (joinStrip (texts ++ textBlocks (mkRoundLog env callIdx saved msgs).response)),
          log := [mkRoundLog env callIdx saved msgs],
          texts := texts ++ textBlocks (mkRoundLog env callIdx saved msgs).response,
          finalMessages := stripSystem msgs ++ (mkRoundLog env callIdx saved msgs).appended,
          forcedStop := false }) ∨
    (∃ rs, (mkRoundLog env callIdx saved msgs).raisedMsg = none ∧
      (mkRoundLog env callIdx saved msgs).toolBatch = some rs ∧
      loop env (fuel + 1) msgs texts callIdx saved =
        { outcome := (loopNext env fuel msgs texts callIdx saved).outcome,
          log := mkRoundLog env callIdx saved msgs :: (loopNext env fuel msgs texts callIdx saved).log,
          texts := (loopNext env fuel msgs texts callIdx saved).texts,
          finalMessages := (loopNext env fuel msgs texts callIdx saved).finalMessages,
          forcedStop := (loopNext env fuel msgs texts callIdx saved).forcedStop }) := by
  simp only [loop]
  cases hr : (mkRoundLog env callIdx saved msgs).raisedMsg with
  | some msg => exact Or.inl ⟨msg, rfl, rfl⟩
  | none =>
    cases hb : (mkRoundLog env callIdx saved msgs).toolBatch with
    | none => exact Or.inr (Or.inl ⟨rfl, rfl, rfl⟩)
    | some rs => exact Or.inr (Or.inr ⟨rs, rfl, rfl, rfl⟩)

theorem loop_log_length (env : Env) :
    ∀ (fuel : Nat) (msgs : List Message) (texts : List String) (callIdx : Nat) (saved : Bool),
      (loop env fuel msgs texts callIdx saved).log.length ≤ fuel := by
  intro fuel
  induction fuel with
  | zero => intro msgs texts callIdx saved; simp [loop]
  | succ fuel ih =>
    intro msgs texts callIdx saved
    rcases loop_succ_spec env fuel msgs texts callIdx saved with ⟨msg, _, heq⟩ |
      ⟨_, _, heq⟩ | ⟨rs, _, _, heq⟩ <;> rw [heq]
    · simp
    · simp
    · simpa using ih _ _ _ _

theorem loop_forced_outcome (env : Env) :
    ∀ (fuel : Nat) (msgs : List Message) (texts : List String) (callIdx : Nat) (saved : Bool),
      (loop env fuel msgs texts callIdx saved).forcedStop = true →
      (loop env fuel msgs texts callIdx saved).outcome =
        .ok (forcedStopOutput (loop env fuel msgs texts callIdx saved).texts) := by
  intro fuel
  induction fuel with
  | zero => intro msgs texts callIdx saved _; rfl
  | succ fuel ih =>
    intro msgs texts callIdx saved h
    rcases loop_succ_spec env fuel msgs texts callIdx saved with ⟨msg, _, heq⟩ |
      ⟨_, _, heq⟩ | ⟨rs, _, _, heq⟩ <;> rw [heq] at h ⊢
    · simp at h
    · simp at h
    · exact ih _ _ _ _ h

theorem loop_ok_output (env : Env) :
    ∀ (fuel : Nat) (msgs : List Message) (texts : List String) (callIdx : Nat) (saved : Bool)
      (out : String),
      (loop env fuel msgs texts callIdx saved).forcedStop = false →
      (loop env fuel msgs texts callIdx saved).outcome = .ok out →
      out = joinStrip (loop env fuel msgs texts callIdx saved).texts := by
  intro fuel
  induction fuel with
  | zero => intro msgs texts callIdx saved out h; simp [loop] at h
  | succ fuel ih =>
    intro msgs texts callIdx saved out h hok
    rcases loop_succ_spec env fuel msgs texts callIdx saved with ⟨msg, _, heq⟩ |
      ⟨_, _, heq⟩ | ⟨rs, _, _, heq⟩ <;> rw [heq] at h hok ⊢
    · simp at hok
    · simp only [Except.ok.injEq] at hok
      simpa using hok.symm
    · exact ih _ _ _ _ _ h hok

theorem loop_texts (env : Env) :
    ∀ (fuel : Nat) (msgs : List Message) (texts : List String) (callIdx : Nat) (saved : Bool),
      (loop env fuel msgs texts callIdx saved).texts =
        texts ++ ((loop env fuel msgs texts callIdx saved).log.map
          (fun l => textBlocks l.response)).flatten := by
  intro fuel
  induction fuel with
  | zero => intro msgs texts callIdx saved; simp [loop]
  | succ fuel ih =>
    intro msgs texts callIdx saved
    rcases loop_succ_spec env fuel msgs texts callIdx saved with ⟨msg, _, heq⟩ |
      ⟨_, _, heq⟩ | ⟨rs, _, _, heq⟩ <;> rw [heq]
    · simp
    · simp
    · simp only [List.map_cons, List.flatten_cons, ← List.append_assoc]
      exact ih _ _ _ _

theorem loop_log_mem (env : Env) :
    ∀ (fuel : Nat) (msgs : List Message) (texts : List String) (callIdx : Nat) (saved : Bool),
      ∀ l ∈ (loop env fuel msgs texts callIdx saved).log,
        ∃ c0 s0 m0, l = mkRoundLog env c0 s0 m0 := by
  intro fuel
  induction fuel with
  | zero => intro msgs texts callIdx saved l hl; simp [loop] at hl
  | succ fuel ih =>
    intro msgs texts callIdx saved l hl
    rcases loop_succ_spec env fuel msgs texts callIdx saved with ⟨msg, _, heq⟩ |
      ⟨_, _, heq⟩ | ⟨rs, _, _, heq⟩ <;> rw [heq] at hl
    · simp only [List.mem_singleton] at hl
      exact ⟨callIdx, saved, msgs, hl⟩
    · simp only [List.mem_singleton] at hl
      exact ⟨callIdx, saved, msgs, hl⟩
    · simp only [List.mem_cons] at hl
      rcases hl with hl | hl
      · exact ⟨callIdx, saved, msgs, hl⟩
      · exact ih _ _ _ _ l hl

theorem loop_saved_true (env : Env) :
    ∀ (fuel : Nat) (msgs : List Message) (texts : List String) (callIdx : Nat),
      ∀ l ∈ (loop env fuel msgs texts callIdx true).log,
        l.savedBefore = true ∧ l.savedAfter = true := by
  intro fuel
  induction fuel with
  | zero => intro msgs texts callIdx l hl; simp [loop] at hl
  | succ fuel ih =>
    intro msgs texts callIdx l hl
    have hhead : (mkRoundLog env callIdx true msgs).savedBefore = true ∧
        (mkRoundLog env callIdx true msgs).savedAfter = true :=
      ⟨rfl, mkRoundLog_saved_mono env callIdx msgs⟩
    rcases loop_succ_spec env fuel msgs texts callIdx true with ⟨msg, _, heq⟩ |
      ⟨_, _, heq⟩ | ⟨rs, _, _, heq⟩ <;> rw [heq] at hl
    · simp only [List.mem_singleton] at hl
      rw [hl]; exact hhead
    · simp only [List.mem_singleton] at hl
      rw [hl]; exact hhead
    · simp only [List.mem_cons] at hl
      rcases hl with hl | hl
      · rw [hl]; exact hhead
      · have hl2 : l ∈ (loop env fuel (stripSystem msgs ++
            (mkRoundLog env callIdx true msgs).appended)
            (texts ++ textBlocks (mkRoundLog env callIdx true msgs).response)
            (callIdx + 1) true).log := by
          have := hhead.2
          unfold loopNext at hl
          rw [this] at hl
          exact hl
        exact ih _ _ _ l hl2

theorem loop_saved_pairwise (env : Env) :
    ∀ (fuel : Nat) (msgs : List Message) (texts : List String) (callIdx : Nat) (saved : Bool),
      (loop env fuel msgs texts callIdx saved).log.Pairwise
        (fun a b => a.savedAfter = true → b.savedBefore = true) := by
  intro fuel
  induction fuel with
  | zero => intro msgs texts callIdx saved; simp [loop]
  | succ fuel ih =>
    intro msgs texts callIdx saved
    rcases loop_succ_spec env fuel msgs texts callIdx saved with ⟨msg, _, heq⟩ |
      ⟨_, _, heq⟩ | ⟨rs, _, _, heq⟩ <;> rw [heq]
    · simp
    · simp
    · simp only [List.pairwise_cons]
      refine ⟨?_, ih _ _ _ _⟩
      intro b hb2 hsa
      unfold loopNext at hb2
      rw [hsa] at hb2
      exact (loop_saved_true env _ _ _ _ b hb2).1

theorem loop_raised_iff (env : Env) :
    ∀ (fuel : Nat) (msgs : List Message) (texts : List String) (callIdx : Nat) (saved : Bool)
      (msg : String),
      (loop env fuel msgs texts callIdx saved).outcome = .error (.toolRaised msg) ↔
        ∃ l ∈ (loop env fuel msgs texts callIdx saved).log, l.raisedMsg = some msg := by
  intro fuel
  induction fuel with
  | zero => intro msgs texts callIdx saved msg; simp [loop]
  | succ fuel ih =>
    intro msgs texts callIdx saved msg
    rcases loop_succ_spec env fuel msgs texts callIdx saved with ⟨m0, hr, heq⟩ |
      ⟨hr, _, heq⟩ | ⟨rs, hr, _, heq⟩ <;> rw [heq]
    · simp only [List.mem_singleton]
      constructor
      · intro h
        simp only [Except.error.injEq, PyError.toolRaised.injEq] at h
        exact ⟨mkRoundLog env callIdx saved msgs, rfl, by rw [hr, h]⟩
      · rintro ⟨l, hl, hlr⟩
        rw [hl, hr] at hlr
        simp only [Option.some.injEq] at hlr
        simp [hlr]
    · simp only [List.mem_singleton]
      constructor
      · intro h; simp at h
      · rintro ⟨l, hl, hlr⟩
        rw [hl, hr] at hlr
        simp at hlr
    · simp only [List.mem_cons]
      constructor
      · intro h
        obtain ⟨l, hl, hlr⟩ := (ih _ _ _ _ msg).mp h
        exact ⟨l, Or.inr hl, hlr⟩
      · rintro ⟨l, hl | hl, hlr⟩
        · rw [hl, hr] at hlr
          simp at hlr
        · exact (ih _ _ _ _ msg).mpr ⟨l, hl, hlr⟩

theorem loop_nonfinal_batch (env : Env) :
    ∀ (fuel : Nat) (msgs : List Message) (texts : List String) (callIdx : Nat) (saved : Bool)
      (i : Nat) (h : i + 1 < (loop env fuel msgs texts callIdx saved).log.length),
      ∃ rs, ((loop env fuel msgs texts callIdx saved).log.get
        ⟨i, Nat.lt_of_succ_lt h⟩).toolBatch = some rs := by
  intro fuel
  induction fuel with
  | zero =>
    intro msgs texts callIdx saved i h
    simp [loop] at h
  | succ fuel ih =>
    intro msgs texts callIdx saved i h
    rcases loop_succ_spec env fuel msgs texts callIdx saved with ⟨msg, _, heq⟩ |
      ⟨_, _, heq⟩ | ⟨rs, _, hb, heq⟩
    · rw [heq] at h
      simp at h
    · rw [heq] at h
      simp at h
    · revert h
      rw [heq]
      intro h
      cases i with
      | zero => exact ⟨rs, hb⟩
      | succ i =>
        have h2 : i + 1 < (loopNext env fuel msgs texts callIdx saved).log.length := by
          simpa using h
        obtain ⟨rs2, hrs2⟩ := ih _ _ _ _ i h2
        exact ⟨rs2, hrs2⟩

theorem loop_no_tools (env : Env) (fuel : Nat) (msgs : List Message) (texts : List String)
    (callIdx : Nat) (saved : Bool) (h : toolUseTriples (env.script callIdx) = []) :
    (loop env (fuel + 1) msgs texts callIdx saved).log = [mkRoundLog env callIdx saved msgs] ∧
    (loop env (fuel + 1) msgs texts callIdx saved).outcome =
      .ok (joinStrip (texts ++ textBlocks (env.script callIdx))) ∧
    (loop env (fuel + 1) msgs texts callIdx saved).forcedStop = false := by
  rcases mkRoundLog_cases env callIdx saved msgs with ⟨_, hb, hr, _, _⟩ |
    ⟨msg, hne, _⟩ | ⟨rs, s1, hne, _⟩
  · rcases loop_succ_spec env fuel msgs texts callIdx saved with ⟨msg, hr2, heq⟩ |
      ⟨_, _, heq⟩ | ⟨rs, _, hb2, heq⟩
    · rw [hr] at hr2; simp at hr2
    · rw [heq]
      exact ⟨rfl, rfl, rfl⟩
    · rw [hb] at hb2; simp at hb2
  · exact absurd h hne
  · exact absurd h hne

theorem forcedStopOutput_spec (texts : List String) :
    forcedStopOutput texts ≠ "" ∧
    (joinStrip texts ≠ "" → forcedStopOutput texts =
      joinStrip texts ++ "\n\nStopped: too many tool-calling rounds (possible loop).") ∧
    (joinStrip texts = "" → forcedStopOutput texts =
      "Stopped: too many tool-calling rounds (possible infinite loop).") := by
  simp only [forcedStopOutput]
  by_cases h : joinStrip texts = ""
  · rw [if_pos h]
    exact ⟨by decide, fun hc => absurd h hc, fun _ => rfl⟩
  · rw [if_neg h]
    refine ⟨?_, fun _ => rfl, fun hc => absurd hc h⟩
    intro hcon
    have hlen := congrArg String.length hcon
    rw [String.length_append] at hlen
    have h0 : ("" : String).length = 0 := rfl
    rw [h0] at hlen
    have hpos :
        0 < ("\n\nStopped: too many tool-calling rounds (possible loop)." : String).length := by
      decide
    omega

/- ============================================================
   Part 6: the claims about process_query
   ============================================================ -/

/-- C1: for every query, the number of model-call rounds in process_query
never exceeds MAX_TOOL_ROUNDS (= 12); when the bound trips, the loop
terminates without raising and returns the accumulated text with the
forced-stop notice appended, and a non-empty notice is returned even when
no text was accumulated. -/
theorem C1_round_bound (env : Env) (q : String) :
    (process_query (some env) q).log.length ≤ MAX_TOOL_ROUNDS ∧
    ((process_query (some env) q).forcedStop = true →
      (process_query (some env) q).outcome =
        .ok (forcedStopOutput (process_query (some env) q).texts) ∧
      forcedStopOutput (process_query (some env) q).texts ≠ "" ∧
      (joinStrip (process_query (some env) q).texts ≠ "" →
        forcedStopOutput (process_query (some env) q).texts =
          joinStrip (process_query (some env) q).texts ++
            "\n\nStopped: too many tool-calling rounds (possible loop).") ∧
      (joinStrip (process_query (some env) q).texts = "" →
        forcedStopOutput (process_query (some env) q).texts =
          "Stopped: too many tool-calling rounds (possible infinite loop).")) := by
  constructor
  · exact loop_log_length env MAX_TOOL_ROUNDS [⟨Role.user, MsgContent.str q⟩] [] 0 false
  · intro hfs
    refine ⟨loop_forced_outcome env MAX_TOOL_ROUNDS [⟨Role.user, MsgContent.str q⟩] [] 0 false hfs,
      ?_, ?_, ?_⟩
    · exact (forcedStopOutput_spec _).1
    · exact (forcedStopOutput_spec _).2.1
    · exact (forcedStopOutput_spec _).2.2

/-- Witness for C1: in a scripted environment whose model keeps requesting
tools, the bound trips after twelve model calls and the run returns the
accumulated text plus the forced-stop notice. -/
theorem C1_round_bound_witness :
    (process_query (some envC1) "hi").forcedStop = true ∧
    (process_query (some envC1) "hi").log.length = 12 ∧
    (process_query (some envC1) "hi").outcome =
      .ok (forcedStopOutput (process_query (some envC1) "hi").texts) ∧
    forcedStopOutput (process_query (some envC1) "hi").texts =
      "t\nt\nt\nt\nt\nt\nt\nt\nt\nt\nt\nt\n\nStopped: too many tool-calling rounds (possible loop)." := by
  have h := (C1_round_bound envC1 "hi").2 (by rfl)
  exact ⟨rfl, rfl, h.1, rfl⟩

/-- C2: in every round whose model response contains tool requests and
whose tool batch completed, the message appended immediately after the
assistant message is a single message carrying exactly one ToolResult per
ToolRequest, keyed by the originating ToolRequest id, in the same order;
each recorded result is the normalized output of the corresponding
env.callTool invocation (so all requests of the round were executed before
the next model call); and every round that is followed by another model
call completed its batch. -/
theorem C2_tool_result_batch (env : Env) (q : String) :
    (∀ l ∈ (process_query (some env) q).log, ∀ rs, l.toolBatch = some rs →
      l.appended = ⟨Role.assistant, MsgContent.blocks l.response⟩ ::
        ⟨Role.user, MsgContent.toolResults rs⟩ ::
        (if l.savedAfter then [savedGuidanceMsg] else []) ∧
      rs.map (fun r => r.tool_use_id) = (toolUseTriples l.response).map (fun t => t.1) ∧
      rs.length = (toolUseTriples l.response).length ∧
      ∀ p ∈ (toolUseTriples l.response).zip rs,
        ∃ v e, env.callTool p.1.2.1 p.1.2.2 = .returns v e ∧
          p.2 = ⟨p.1.1, toolOutputStr v⟩) ∧
    (∀ (i : Nat) (h : i + 1 < (process_query (some env) q).log.length),
      ∃ rs, ((process_query (some env) q).log.get
        ⟨i, Nat.lt_of_succ_lt h⟩).toolBatch = some rs) := by
  constructor
  · intro l hl rs hrs
    obtain ⟨c0, s0, m0, hl0⟩ := loop_log_mem env _ _ _ _ _ l hl
    subst hl0
    rcases mkRoundLog_cases env c0 s0 m0 with ⟨_, hb, _⟩ | ⟨msg, _, _, hb, _⟩ |
      ⟨rs2, s1, hne, hex, hb, hr, hsa, happ⟩
    · rw [hb] at hrs; exact absurd hrs (by simp)
    · rw [hb] at hrs; exact absurd hrs (by simp)
    · rw [hb] at hrs
      have hrs2 : rs2 = rs := Option.some.inj hrs
      subst hrs2
      have hids := execTools_ok_ids env _ _ _ _ hex
      refine ⟨?_, hids, ?_, execTools_ok_zip env _ _ _ _ hex⟩
      · rw [happ, hsa]
        rfl
      · have := congrArg List.length hids
        simpa using this
  · intro i h
    exact loop_nonfinal_batch env _ _ _ _ _ i h

/-- Witness for C2: in the two-tool round of the scripted environment, the
batch message carries both results, keyed and ordered by the requests. -/
theorem C2_tool_result_batch_witness :
    mkRoundLog envC2 0 false [⟨Role.user, MsgContent.str "hi"⟩] ∈
      (process_query (some envC2) "hi").log ∧
    (mkRoundLog envC2 0 false [⟨Role.user, MsgContent.str "hi"⟩]).toolBatch =
      some [⟨"t1", "r-web_search"⟩, ⟨"t2", "r-geocode"⟩] ∧
    (mkRoundLog envC2 0 false [⟨Role.user, MsgContent.str "hi"⟩]).appended =
      [⟨Role.assistant, MsgContent.blocks
          [.text "checking", .toolUse "t1" "web_search" "qargs",
            .toolUse "t2" "geocode" "gargs"]⟩,
        ⟨Role.user, MsgContent.toolResults [⟨"t1", "r-web_search"⟩, ⟨"t2", "r-geocode"⟩]⟩] := by
  refine ⟨by decide, by rfl, ?_⟩
  have h := ((C2_tool_result_batch envC2 "hi").1
    (mkRoundLog envC2 0 false [⟨Role.user, MsgContent.str "hi"⟩]) (by decide)
    [⟨"t1", "r-web_search"⟩, ⟨"t2", "r-geocode"⟩] (by rfl)).1
  rw [h]
  rfl

/-- C3 counterexample: the save_briefing call of envC3 returns an
error-signaled result (isError = true), yet the run-scoped flag is set to
true in that round (savedAfter of round one is true) and stays true — so
the flag is not set "only when the call did not signal failure". -/
theorem C3_counterexample :
    envC3.callTool "save_briefing" "sargs" = .returns (.raw "error: disk full") true ∧
    (process_query (some envC3) "hi").log.map (fun l => (l.savedBefore, l.savedAfter)) =
      [(false, true), (true, true)] := ⟨rfl, rfl⟩

/-- C3 (amended): the flag briefing_saved is set exactly by the invocation
of a tool named save_briefing in a completed batch, regardless of the
result-level error flag (a raising call does not set it); the flag never
goes from true to false within a round, and once true it stays true in all
later rounds. -/
theorem C3_flag_amended (env : Env) (q : String) :
    (∀ l ∈ (process_query (some env) q).log, ∀ rs, l.toolBatch = some rs →
      l.savedAfter = (l.savedBefore ||
        (toolUseTriples l.response).any (fun t => t.2.1 == "save_briefing"))) ∧
    (∀ l ∈ (process_query (some env) q).log, l.toolBatch = none → l.savedAfter = l.savedBefore) ∧
    (∀ l ∈ (process_query (some env) q).log, l.savedBefore = true → l.savedAfter = true) ∧
    (process_query (some env) q).log.Pairwise
      (fun a b => a.savedAfter = true → b.savedBefore = true ∧ b.savedAfter = true) := by
  refine ⟨?_, ?_, ?_, ?_⟩
  · intro l hl rs hrs
    obtain ⟨c0, s0, m0, hl0⟩ := loop_log_mem env _ _ _ _ _ l hl
    subst hl0
    rcases mkRoundLog_cases env c0 s0 m0 with ⟨_, hb, _⟩ | ⟨msg, _, _, hb, _⟩ |
      ⟨rs2, s1, hne, hex, hb, hr, hsa, happ⟩
    · rw [hb] at hrs; exact absurd hrs (by simp)
    · rw [hb] at hrs; exact absurd hrs (by simp)
    · rw [hsa, execTools_ok_saved env _ _ _ _ hex]
      rfl
  · intro l hl hbn
    obtain ⟨c0, s0, m0, hl0⟩ := loop_log_mem env _ _ _ _ _ l hl
    subst hl0
    rcases mkRoundLog_cases env c0 s0 m0 with ⟨_, _, _, _, hsa⟩ | ⟨msg, _, _, _, _, _, hsa⟩ |
      ⟨rs2, s1, _, _, hb, _⟩
    · rw [hsa]; rfl
    · rw [hsa]; rfl
    · rw [hb] at hbn; exact absurd hbn (by simp)
  · intro l hl hsb
    obtain ⟨c0, s0, m0, hl0⟩ := loop_log_mem env _ _ _ _ _ l hl
    subst hl0
    have hs0 : s0 = true := hsb
    subst hs0
    exact mkRoundLog_saved_mono env c0 m0
  · have hp := loop_saved_pairwise env MAX_TOOL_ROUNDS [⟨Role.user, MsgContent.str q⟩] [] 0 false
    refine List.Pairwise.imp_of_mem ?_ hp
    intro a b _ hbmem hR hsa
    have hsb := hR hsa
    refine ⟨hsb, ?_⟩
    obtain ⟨c0, s0, m0, hb0⟩ := loop_log_mem env _ _ _ _ _ b hbmem
    subst hb0
    have hs0 : s0 = true := hsb
    subst hs0
    exact mkRoundLog_saved_mono env c0 m0

/-- Witness for C3 (amended): applying the amended flag law at the
error-signaled save_briefing round of envC3 computes savedAfter = true. -/
theorem C3_flag_amended_witness :
    (mkRoundLog envC3 0 false [⟨Role.user, MsgContent.str "hi"⟩]).toolBatch =
      some [⟨"t1", "error: disk full"⟩] ∧
    (mkRoundLog envC3 0 false [⟨Role.user, MsgContent.str "hi"⟩]).savedAfter = true := by
  refine ⟨by rfl, ?_⟩
  have h := (C3_flag_amended envC3 "hi").1
    (mkRoundLog envC3 0 false [⟨Role.user, MsgContent.str "hi"⟩]) (by decide)
    [⟨"t1", "error: disk full"⟩] (by rfl)
  rw [h]
  rfl

/-- C4 counterexample: in envC4 the tool call raises; the exception
propagates out of process_query (the outcome is the toolRaised error, not
a normal return), and the raising round's ToolRequest is left with no
tool-result message (the final history ends at the assistant message). -/
theorem C4_counterexample :
    envC4.callTool "web_scrape" "uargs" = .raises "boom" ∧
    (process_query (some envC4) "hi").outcome = .error (.toolRaised "boom") ∧
    (process_query (some envC4) "hi").finalMessages =
      [⟨Role.user, MsgContent.str "hi"⟩,
        ⟨Role.assistant, MsgContent.blocks [.toolUse "t1" "web_scrape" "uargs"]⟩] ∧
    toolUseTriples [ContentBlock.toolUse "t1" "web_scrape" "uargs"] ≠ [] :=
  ⟨rfl, rfl, rfl, by decide⟩

/-- C4 (amended): a tool call that returns an error-signaled result is
still recorded as that request's ToolResult (the isError flag is ignored)
and the query continues; but a tool call that raises propagates the
exception out of process_query — the outcome is the toolRaised error
exactly when some logged round raised — and the raising round appends no
tool-result batch (only the assistant message). -/
theorem C4_raise_aborts_amended (env : Env) (q : String) :
    (∀ l ∈ (process_query (some env) q).log, ∀ rs, l.toolBatch = some rs →
      ∀ p ∈ (toolUseTriples l.response).zip rs,
        ∃ v e, env.callTool p.1.2.1 p.1.2.2 = .returns v e ∧
          p.2 = ⟨p.1.1, toolOutputStr v⟩) ∧
    (∀ msg, (process_query (some env) q).outcome = .error (.toolRaised msg) ↔
      ∃ l ∈ (process_query (some env) q).log, l.raisedMsg = some msg) ∧
    (∀ l ∈ (process_query (some env) q).log, ∀ msg, l.raisedMsg = some msg →
      l.toolBatch = none ∧
      l.appended = [⟨Role.assistant, MsgContent.blocks l.response⟩]) := by
  refine ⟨?_, ?_, ?_⟩
  · intro l hl rs hrs
    obtain ⟨c0, s0, m0, hl0⟩ := loop_log_mem env _ _ _ _ _ l hl
    subst hl0
    rcases mkRoundLog_cases env c0 s0 m0 with ⟨_, hb, _⟩ | ⟨msg, _, _, hb, _⟩ |
      ⟨rs2, s1, hne, hex, hb, hr, hsa, happ⟩
    · rw [hb] at hrs; exact absurd hrs (by simp)
    · rw [hb] at hrs; exact absurd hrs (by simp)
    · rw [hb] at hrs
      have hrs2 : rs2 = rs := Option.some.inj hrs
      subst hrs2
      exact execTools_ok_zip env _ _ _ _ hex
  · intro msg
    exact loop_raised_iff env MAX_TOOL_ROUNDS [⟨Role.user, MsgContent.str q⟩] [] 0 false msg
  · intro l hl msg hmsg
    obtain ⟨c0, s0, m0, hl0⟩ := loop_log_mem env _ _ _ _ _ l hl
    subst hl0
    rcases mkRoundLog_cases env c0 s0 m0 with ⟨_, _, hr, _⟩ | ⟨m1, _, _, hb, hr, happ, _⟩ |
      ⟨rs2, s1, _, _, _, hr, _⟩
    · rw [hr] at hmsg; exact absurd hmsg (by simp)
    · exact ⟨hb, happ⟩
    · rw [hr] at hmsg; exact absurd hmsg (by simp)

/-- Witness for C4 (amended): applying the raised-iff law at envC4
produces the logged raising round for the escaped exception. -/
theorem C4_raise_aborts_amended_witness :
    (process_query (some envC4) "hi").outcome = .error (.toolRaised "boom") ∧
    ∃ l ∈ (process_query (some envC4) "hi").log, l.raisedMsg = some "boom" := by
  refine ⟨rfl, ?_⟩
  exact ((C4_raise_aborts_amended envC4 "hi").2.1 "boom").mp rfl

/-- C5: calling process_query with no active Tool Transport session fails
with the not-connected error before any model call (the Python code
dereferences the None session at `self.session.list_tools()`). -/
theorem C5_not_connected (q : String) :
    (process_query none q).outcome = .error PyError.notConnected ∧
    (process_query none q).log = [] := ⟨rfl, rfl⟩

/-- C6: if the first model response contains no ToolRequest blocks, the
loop terminates after exactly one round and returns that round's text
blocks newline-joined and trimmed; in general, every run that terminates
normally (no forced stop) returns the newline-joined, trimmed
concatenation of all text blocks collected across rounds, in emission
order. -/
theorem C6_output_concat (env : Env) (q : String) :
    (toolUseTriples (env.script 0) = [] →
      (process_query (some env) q).log.length = 1 ∧
      (process_query (some env) q).outcome =
        .ok (joinStrip (textBlocks (env.script 0)))) ∧
    ((process_query (some env) q).forcedStop = false →
      ∀ out, (process_query (some env) q).outcome = .ok out →
        out = joinStrip (process_query (some env) q).texts) ∧
    (process_query (some env) q).texts =
      ((process_query (some env) q).log.map (fun l => textBlocks l.response)).flatten := by
  refine ⟨?_, ?_, ?_⟩
  · intro h
    have h2 := loop_no_tools env (MAX_TOOL_ROUNDS - 1) [⟨Role.user, MsgContent.str q⟩] [] 0 false h
    constructor
    · show (loop env (MAX_TOOL_ROUNDS - 1 + 1) [⟨Role.user, MsgContent.str q⟩] []
        0 false).log.length = 1
      rw [h2.1]
      rfl
    · show (loop env (MAX_TOOL_ROUNDS - 1 + 1) [⟨Role.user, MsgContent.str q⟩] []
        0 false).outcome = .ok (joinStrip (textBlocks (env.script 0)))
      rw [h2.2.1, List.nil_append]
  · intro hfs out hout
    exact loop_ok_output env MAX_TOOL_ROUNDS [⟨Role.user, MsgContent.str q⟩] [] 0 false out
      hfs hout
  · have := loop_texts env MAX_TOOL_ROUNDS [⟨Role.user, MsgContent.str q⟩] [] 0 false
    simpa using this

/-- Witness for C6: a text-only first response terminates in one round and
returns the joined texts. -/
theorem C6_output_concat_witness :
    toolUseTriples (envC6.script 0) = [] ∧
    (process_query (some envC6) "hi").log.length = 1 ∧
    (process_query (some envC6) "hi").outcome = .ok "hello\nworld" := by
  refine ⟨by decide, ?_, ?_⟩
  · exact ((C6_output_concat envC6 "hi").1 (by decide)).1
  · have h := ((C6_output_concat envC6 "hi").1 (by decide)).2
    rw [h]
    rfl

/-- C7: the system prompt of every round equals the base prompt plus,
exactly when the briefing_saved flag is set, the already-saved directive
(so the directive is recomputed from the current flag each round); once
the flag is set every later round starts with it set (hence carries the
directive); and the history sent to the model never contains a
system-role message (the transient guidance message is stripped before
every model call). -/
theorem C7_directive (env : Env) (q : String) :
    (∀ l ∈ (process_query (some env) q).log,
      l.systemPrompt = BASE_SYSTEM_PROMPT env.skills ++
        (if l.savedBefore then SAVED_DIRECTIVE else "")) ∧
    (process_query (some env) q).log.Pairwise
      (fun a b => a.savedAfter = true → b.savedBefore = true) ∧
    (∀ l ∈ (process_query (some env) q).log, ∀ m ∈ l.messagesSent,
      m.role ≠ Role.system) := by
  refine ⟨?_, loop_saved_pairwise env MAX_TOOL_ROUNDS [⟨Role.user, MsgContent.str q⟩] [] 0 false,
    ?_⟩
  · intro l hl
    obtain ⟨c0, s0, m0, hl0⟩ := loop_log_mem env _ _ _ _ _ l hl
    subst hl0
    exact mkRoundLog_systemPrompt env c0 s0 m0
  · intro l hl m hm
    obtain ⟨c0, s0, m0, hl0⟩ := loop_log_mem env _ _ _ _ _ l hl
    subst hl0
    have hm2 : m ∈ stripSystem m0 := hm
    have := List.of_mem_filter hm2
    simpa using this

/-- Witness for C7: after the successful save_briefing round of envC7, the
second round's system prompt is the base prompt with the already-saved
directive appended, and no history sent to the model contains a
system-role message. -/
theorem C7_directive_witness :
    ∃ l ∈ (process_query (some envC7) "hi").log,
      l.savedBefore = true ∧
      l.systemPrompt = BASE_SYSTEM_PROMPT "" ++ SAVED_DIRECTIVE := by
  have hlen : 1 < (process_query (some envC7) "hi").log.length := by decide
  have hmem := List.get_mem (process_query (some envC7) "hi").log 1 hlen
  have hsp := (C7_directive envC7 "hi").1 _ hmem
  exact ⟨(process_query (some envC7) "hi").log.get ⟨1, hlen⟩, hmem, rfl, hsp.trans (by rfl)⟩

/- ============================================================
   Part 7: the claim about delete_briefing
   ============================================================ -/

/-- C10: for every store state and every non-empty id matching no stored
briefing, delete_briefing returns {deleted: false, id} rather than an
error and leaves the store unchanged; consequently a second delete of the
same id (over any store) returns deleted = false and leaves the store as
the first delete left it. -/
theorem C10_delete_missing (id : String) (store : List StoreEntry)
    (hid : pyStrip id ≠ "") :
    ((∀ b ∈ store, entryMatches b id = false) →
      delete_briefing id store = (store, .ok false id)) ∧
    delete_briefing id (delete_briefing id store).1 =
      ((delete_briefing id store).1, .ok false id) := by
  have key : ∀ st : List StoreEntry, (∀ b ∈ st, entryMatches b id = false) →
      delete_briefing id st = (st, .ok false id) := by
    intro st hall
    have hfilter : st.filter (fun b => !entryMatches b id) = st := by
      apply List.filter_eq_self.mpr
      intro b hb
      simp [hall b hb]
    simp only [delete_briefing]
    rw [if_neg hid, hfilter]
    simp
  refine ⟨key store, ?_⟩
  have hfst : (delete_briefing id store).1 = store.filter (fun b => !entryMatches b id) := by
    simp only [delete_briefing]
    rw [if_neg hid]
  apply key
  intro b hb
  rw [hfst] at hb
  have := List.of_mem_filter hb
  simpa using this

/-- Witness for C10: deleting an id that matches nothing in a two-entry
store returns deleted = false and leaves the entries in place. -/
theorem C10_delete_missing_witness :
    pyStrip "xyz" ≠ "" ∧
    delete_briefing "xyz" [StoreEntry.dict (some "abc") "p", StoreEntry.nonDict "j"] =
      ([StoreEntry.dict (some "abc") "p", StoreEntry.nonDict "j"],
        DeleteResult.ok false "xyz") := by
  refine ⟨by decide, ?_⟩
  exact (C10_delete_missing "xyz" [StoreEntry.dict (some "abc") "p", StoreEntry.nonDict "j"]
    (by decide)).1 (by decide)

/- ============================================================
   Part 8: lemmas about rank_search_results and the C8 claim
   ============================================================ -/

theorem mem_enumFrom_fst_le {α : Type} :
    ∀ (k : Nat) (l : List α) (p : Nat × α), p ∈ List.enumFrom k l → k ≤ p.1 := by
  intro k l
  induction l generalizing k with
  | nil => intro p hp; simp [List.enumFrom] at hp
  | cons x xs ih =>
    intro p hp
    rcases List.mem_cons.mp hp with hp | hp
    · rw [hp]
    · exact Nat.le_of_succ_le (ih (k + 1) p hp)

theorem enumFrom_fst_pairwise {α : Type} :
    ∀ (k : Nat) (l : List α), (List.enumFrom k l).Pairwise (fun a b => a.1 < b.1) := by
  intro k l
  induction l generalizing k with
  | nil => simp [List.enumFrom]
  | cons x xs ih =>
    rw [show List.enumFrom k (x :: xs) = (k, x) :: List.enumFrom (k + 1) xs from rfl,
      List.pairwise_cons]
    exact ⟨fun p hp => Nat.lt_of_succ_le (mem_enumFrom_fst_le (k + 1) xs p hp), ih (k + 1)⟩

theorem insertByScore_spec (x : ScoredResult) :
    ∀ (l : List ScoredResult), l.Pairwise rankOrder →
      (∀ y ∈ l, x.original_index < y.original_index) →
      (insertByScore x l).Pairwise rankOrder ∧
      ∀ z ∈ insertByScore x l, z = x ∨ z ∈ l := by
  intro l
  induction l with
  | nil =>
    intro _ _
    constructor
    · simp [insertByScore]
    · intro z hz
      simp [insertByScore] at hz
      exact Or.inl hz
  | cons y ys ih =>
    intro hl hx
    obtain ⟨hhead, htail⟩ := List.pairwise_cons.mp hl
    by_cases hc : x.score ≥ y.score
    · rw [show insertByScore x (y :: ys) = x :: y :: ys from by
        simp [insertByScore, hc]]
      constructor
      · rw [List.pairwise_cons]
        refine ⟨?_, hl⟩
        intro z hz
        rcases List.mem_cons.mp hz with hz | hz
        · rcases lt_or_eq_of_le hc with hlt | heq
          · refine Or.inl ?_
            rw [hz]
            exact hlt
          · refine Or.inr ⟨?_, hx z ?_⟩
            · rw [hz]
              exact heq.symm
            · rw [hz]
              exact List.mem_cons_self y ys
        · have hyz := hhead z hz
          have hzy : z.score ≤ y.score := by
            rcases hyz with h | ⟨h, _⟩
            · exact le_of_lt h
            · exact le_of_eq h.symm
          have hzx : z.score ≤ x.score := le_trans hzy hc
          rcases lt_or_eq_of_le hzx with hlt | heq
          · exact Or.inl hlt
          · exact Or.inr ⟨heq.symm, hx z (List.mem_cons_of_mem y hz)⟩
      · intro z hz
        rcases List.mem_cons.mp hz with hz | hz
        · exact Or.inl hz
        · exact Or.inr hz
    · rw [show insertByScore x (y :: ys) = y :: insertByScore x ys from by
        simp [insertByScore, hc]]
      have ihr := ih htail (fun z hz => hx z (List.mem_cons_of_mem y hz))
      constructor
      · rw [List.pairwise_cons]
        refine ⟨?_, ihr.1⟩
        intro z hz
        rcases ihr.2 z hz with hz2 | hz2
        · subst hz2
          exact Or.inl (lt_of_not_ge hc)
        · exact hhead z hz2
      · intro z hz
        rcases List.mem_cons.mp hz with hz | hz
        · exact Or.inr (hz ▸ List.mem_cons_self y ys)
        · rcases ihr.2 z hz with hz2 | hz2
          · exact Or.inl hz2
          · exact Or.inr (List.mem_cons_of_mem y hz2)

theorem sortByScoreDesc_spec :
    ∀ (l : List ScoredResult),
      l.Pairwise (fun a b => a.original_index < b.original_index) →
      (sortByScoreDesc l).Pairwise rankOrder ∧
      ∀ z ∈ sortByScoreDesc l, z ∈ l := by
  intro l
  induction l with
  | nil =>
    intro _
    constructor
    · simp [sortByScoreDesc]
    · intro z hz; simp [sortByScoreDesc] at hz
  | cons x xs ih =>
    intro h
    obtain ⟨hhead, htail⟩ := List.pairwise_cons.mp h
    obtain ⟨hp, hmem⟩ := ih htail
    rw [show sortByScoreDesc (x :: xs) = insertByScore x (sortByScoreDesc xs) from rfl]
    obtain ⟨hp2, hmem2⟩ := insertByScore_spec x (sortByScoreDesc xs) hp
      (fun y hy => hhead y (hmem y hy))
    refine ⟨hp2, ?_⟩
    intro z hz
    rcases hmem2 z hz with hz2 | hz2
    · exact hz2 ▸ List.mem_cons_self x xs
    · exact List.mem_cons_of_mem x (hmem z hz2)

theorem scoredEntries_idx_pairwise (results : List SearchResult)
    (goalTokens : List String) (po : Bool) :
    (scoredEntries results goalTokens po).Pairwise
      (fun a b => a.original_index < b.original_index) := by
  unfold scoredEntries
  rw [List.pairwise_filterMap]
  have henum : results.enum.Pairwise (fun a b => a.1 < b.1) := enumFrom_fst_pairwise 0 results
  refine henum.imp ?_
  intro p q hpq
  intro b hb b2 hb2
  simp only [Option.mem_def] at hb hb2
  by_cases h1 : pyStrip p.2.url = ""
  · rw [if_pos h1] at hb
    exact absurd hb (by simp)
  · by_cases h2 : pyStrip q.2.url = ""
    · rw [if_pos h2] at hb2
      exact absurd hb2 (by simp)
    · rw [if_neg h1] at hb
      rw [if_neg h2] at hb2
      have hbv := Option.some.inj hb
      have hb2v := Option.some.inj hb2
      rw [← hbv, ← hb2v]
      exact hpq

theorem rank_search_results_sorted (results : List SearchResult) (goal : String)
    (top_k : Int) (po : Bool) (out : RankOutput)
    (h : rank_search_results results goal top_k po = .ok out) :
    out.ranked.Pairwise rankOrder ∧ out.top_urls = out.ranked.map (fun s => s.url) := by
  simp only [rank_search_results] at h
  by_cases he : results.isEmpty
  · rw [if_pos he] at h
    exact absurd h (by simp)
  · rw [if_neg he] at h
    simp only [RankResult.ok.injEq] at h
    subst h
    have hsorted := (sortByScoreDesc_spec _
      (scoredEntries_idx_pairwise results (tokenize goal) po)).1
    have hsnd : (sortByScoreDesc (scoredEntries results (tokenize goal) po)).enum.map
        Prod.snd = sortByScoreDesc (scoredEntries results (tokenize goal) po) :=
      List.enumFrom_map_snd 0 _
    have h1 : ((sortByScoreDesc (scoredEntries results (tokenize goal) po)).enum.map
        Prod.snd).Pairwise rankOrder := by
      rw [hsnd]; exact hsorted
    have h2 := List.pairwise_map.mp h1
    have h3 : ((sortByScoreDesc (scoredEntries results (tokenize goal) po)).enum.map
        (fun p => { p.2 with rank := p.1 + 1 })).Pairwise rankOrder :=
      List.pairwise_map.mpr (h2.imp (fun hab => hab))
    constructor
    · exact List.Pairwise.sublist (List.take_sublist _ _) h3
    · rfl

/-- C8: the score of each ranked result is exactly the specification's
deterministic formula (rounded to four decimals, with the official-domain
boosts gated on prefer_official); the ranked output of rank_search_results
is sorted by strictly descending score with ties kept in original input
order; and on the spec's two-result example with goal "storm advisory"
and prefer_official = true, the weather.gov entry ranks first. -/
theorem C8_rank_search_results :
    (∀ (goalTokens : List String) (po : Bool) (idx : Nat) (title url snippet : String),
      (scoreResult goalTokens po idx title url snippet).score =
        round4 (specScore goalTokens po title url snippet)) ∧
    (∀ (results : List SearchResult) (goal : String) (top_k : Int) (po : Bool)
        (out : RankOutput), rank_search_results results goal top_k po = .ok out →
      out.ranked.Pairwise rankOrder ∧ out.top_urls = out.ranked.map (fun s => s.url)) ∧
    rank_search_results
        [⟨"NWS Advisory", "https://weather.gov/x", "storm"⟩,
          ⟨"random blog", "https://example.com/y", "storm"⟩] "storm advisory" 5 true =
      .ok { goal := "storm advisory", top_k := 5,
            top_urls := ["https://weather.gov/x", "https://example.com/y"],
            ranked := [
              { rank := 1, score := 7, title := "NWS Advisory",
                url := "https://weather.gov/x", snippet := "storm",
                domain := "weather.gov", original_index := 0 },
              { rank := 2, score := 1, title := "random blog",
                url := "https://example.com/y", snippet := "storm",
                domain := "example.com", original_index := 1 }],
            total_scored := 2 } := by
  refine ⟨?_, ?_, ?_⟩
  · intro goalTokens po idx title url snippet
    simp only [scoreResult, specScore, tld_boost, trusted_domain_boost, low_quality_penalty,
      articleBoost]
    congr 1
    by_cases hpo : po <;> simp [hpo]
  · intro results goal top_k po out h
    exact rank_search_results_sorted results goal top_k po out h
  · with_unfolding_all rfl

/-- Witness for C8: applying the ordering law at the spec's example gives
the sortedness and url projection for its concrete output. -/
theorem C8_rank_search_results_witness :
    ∃ out, rank_search_results
        [⟨"NWS Advisory", "https://weather.gov/x", "storm"⟩,
          ⟨"random blog", "https://example.com/y", "storm"⟩] "storm advisory" 5 true =
        .ok out ∧
      out.ranked.Pairwise rankOrder ∧ out.top_urls = out.ranked.map (fun s => s.url) := by
  have hex := C8_rank_search_results.2.2
  exact ⟨_, hex, C8_rank_search_results.2.1 _ _ _ _ _ hex⟩

/- ============================================================
   Part 9: lemmas about extract_main_text and the C9 claim
   ============================================================ -/

theorem noDoubleSpaceB_cons_iff (a : Char) (l : List Char) :
    noDoubleSpaceB (a :: l) = true ↔
      ¬(a = ' ' ∧ l.head? = some ' ') ∧ noDoubleSpaceB l = true := by
  cases l with
  | nil => simp [noDoubleSpaceB]
  | cons b t =>
    simp only [noDoubleSpaceB, List.head?_cons, Option.some.injEq, Bool.and_eq_true,
      Bool.not_eq_true', Bool.and_eq_false_iff, decide_eq_false_iff_not]
    constructor
    · rintro ⟨h1, h2⟩
      refine ⟨?_, h2⟩
      rintro ⟨ha, hb⟩
      rcases h1 with h1 | h1
      · exact h1 ha
      · exact h1 hb
    · rintro ⟨h1, h2⟩
      refine ⟨?_, h2⟩
      by_cases ha : a = ' '
      · right
        intro hb
        exact h1 ⟨ha, hb⟩
      · left
        exact ha

theorem noTripleNLB_cons_iff (a : Char) (l : List Char) :
    noTripleNLB (a :: l) = true ↔
      ¬(a = '\n' ∧ l.head? = some '\n' ∧ l.tail.head? = some '\n') ∧
        noTripleNLB l = true := by
  cases l with
  | nil => simp [noTripleNLB]
  | cons b t =>
    cases t with
    | nil => simp [noTripleNLB]
    | cons c t2 =>
      simp only [noTripleNLB, List.head?_cons, List.tail_cons, Option.some.injEq,
        Bool.and_eq_true, Bool.not_eq_true', Bool.and_eq_false_iff,
        decide_eq_false_iff_not]
      constructor
      · rintro ⟨h1, h2⟩
        refine ⟨?_, h2⟩
        rintro ⟨ha, hb, hc⟩
        rcases h1 with (h1 | h1) | h1
        · exact h1 ha
        · exact h1 hb
        · exact h1 hc
      · rintro ⟨h1, h2⟩
        refine ⟨?_, h2⟩
        by_cases ha : a = '\n'
        · by_cases hb : b = '\n'
          · right
            intro hc
            exact h1 ⟨ha, hb, hc⟩
          · left; right
            exact hb
        · left; left
          exact ha

theorem noDoubleSpaceB_tail (a : Char) (l : List Char)
    (h : noDoubleSpaceB (a :: l) = true) : noDoubleSpaceB l = true :=
  ((noDoubleSpaceB_cons_iff a l).mp h).2

theorem noTripleNLB_tail (a : Char) (l : List Char)
    (h : noTripleNLB (a :: l) = true) : noTripleNLB l = true :=
  ((noTripleNLB_cons_iff a l).mp h).2

theorem noDoubleSpaceB_suffix :
    ∀ (pre l : List Char), noDoubleSpaceB (pre ++ l) = true → noDoubleSpaceB l = true := by
  intro pre
  induction pre with
  | nil => intro l h; exact h
  | cons a t ih =>
    intro l h
    exact ih l (noDoubleSpaceB_tail a (t ++ l) h)

theorem noTripleNLB_suffix :
    ∀ (pre l : List Char), noTripleNLB (pre ++ l) = true → noTripleNLB l = true := by
  intro pre
  induction pre with
  | nil => intro l h; exact h
  | cons a t ih =>
    intro l h
    exact ih l (noTripleNLB_tail a (t ++ l) h)

theorem noDoubleSpaceB_append_left :
    ∀ (l post : List Char), noDoubleSpaceB (l ++ post) = true → noDoubleSpaceB l = true := by
  intro l
  induction l with
  | nil => intro post _; rfl
  | cons a t ih =>
    intro post h
    rw [List.cons_append] at h
    obtain ⟨h1, h2⟩ := (noDoubleSpaceB_cons_iff a (t ++ post)).mp h
    refine (noDoubleSpaceB_cons_iff a t).mpr ⟨?_, ih post h2⟩
    rintro ⟨ha, hb⟩
    refine h1 ⟨ha, ?_⟩
    cases t with
    | nil => simp at hb
    | cons x t2 =>
      simpa using hb

theorem noTripleNLB_append_left :
    ∀ (l post : List Char), noTripleNLB (l ++ post) = true → noTripleNLB l = true := by
  intro l
  induction l with
  | nil => intro post _; rfl
  | cons a t ih =>
    intro post h
    rw [List.cons_append] at h
    obtain ⟨h1, h2⟩ := (noTripleNLB_cons_iff a (t ++ post)).mp h
    refine (noTripleNLB_cons_iff a t).mpr ⟨?_, ih post h2⟩
    rintro ⟨ha, hb, hc⟩
    refine h1 ⟨ha, ?_, ?_⟩
    · cases t with
      | nil => simp at hb
      | cons x t2 => simpa using hb
    · cases t with
      | nil => simp at hb
      | cons x t2 =>
        cases t2 with
        | nil => simp at hc
        | cons y t3 => simpa using hc

theorem dropWhile_eq_self_of_head {p : Char → Bool} {l : List Char}
    (h : ∀ x ∈ l.head?, p x = false) : l.dropWhile p = l := by
  cases l with
  | nil => rfl
  | cons a t =>
    have ha : p a = false := h a rfl
    simp [List.dropWhile_cons, ha]

theorem rdropWhile_eq_self_of_getLast {p : Char → Bool} {l : List Char}
    (h : ∀ x ∈ l.getLast?, p x = false) : List.rdropWhile p l = l := by
  rw [List.rdropWhile_eq_self_iff]
  intro hl
  have hx : l.getLast hl ∈ l.getLast? := by
    rw [List.getLast?_eq_getLast l hl]
    rfl
  simp [h _ hx]

theorem pyStripL_eq_self {cs : List Char}
    (hh : ∀ x ∈ cs.head?, isPySpace x = false)
    (hl : ∀ x ∈ cs.getLast?, isPySpace x = false) : pyStripL cs = cs := by
  unfold pyStripL
  rw [dropWhile_eq_self_of_head hh]
  exact rdropWhile_eq_self_of_getLast hl

theorem prefix_head? {l₁ l₂ : List Char} (h : l₁ <+: l₂) (hne : l₁ ≠ []) :
    l₂.head? = l₁.head? := by
  obtain ⟨t, ht⟩ := h
  rw [← ht]
  cases l₁ with
  | nil => exact absurd rfl hne
  | cons a t2 => rfl

theorem pyStripL_head {cs : List Char} :
    ∀ x ∈ (pyStripL cs).head?, isPySpace x = false := by
  intro x hx
  by_cases hne : pyStripL cs = []
  · rw [hne] at hx
    simp at hx
  · unfold pyStripL at hx hne
    have hpre := List.rdropWhile_prefix isPySpace (l := cs.dropWhile isPySpace)
    have hhead := prefix_head? hpre hne
    rw [← hhead] at hx
    have hne2 : cs.dropWhile isPySpace ≠ [] := by
      intro hcon
      apply hne
      rw [hcon]
      rfl
    have := List.head_dropWhile_not isPySpace cs hne2
    have hx2 : x = (cs.dropWhile isPySpace).head hne2 := by
      have := List.head?_eq_head (l := cs.dropWhile isPySpace) hne2
      rw [this] at hx
      exact (Option.some.inj hx).symm
    rw [hx2]
    simpa using this

theorem pyStripL_getLast {cs : List Char} :
    ∀ x ∈ (pyStripL cs).getLast?, isPySpace x = false := by
  intro x hx
  by_cases hne : pyStripL cs = []
  · rw [hne] at hx
    simp at hx
  · unfold pyStripL at hx hne
    have := List.rdropWhile_last_not (p := isPySpace) (l := cs.dropWhile isPySpace) hne
    have hx2 : x = (List.rdropWhile isPySpace (cs.dropWhile isPySpace)).getLast hne := by
      have h2 := List.getLast?_eq_getLast _ hne
      rw [h2] at hx
      exact (Option.some.inj hx).symm
    rw [hx2]
    simpa using this

theorem pyStripL_idem (cs : List Char) : pyStripL (pyStripL cs) = pyStripL cs :=
  pyStripL_eq_self pyStripL_head pyStripL_getLast

theorem pyStripL_mid (cs : List Char) : pyStripL cs <:+: cs := by
  have h1 := List.rdropWhile_prefix isPySpace (l := cs.dropWhile isPySpace)
  have h2 := List.dropWhile_suffix (l := cs) isPySpace
  obtain ⟨t, ht⟩ := h1
  obtain ⟨s, hs⟩ := h2
  refine ⟨s, t, ?_⟩
  show s ++ List.rdropWhile isPySpace (cs.dropWhile isPySpace) ++ t = cs
  rw [List.append_assoc, ht, hs]

theorem pyStripL_subset {cs : List Char} : ∀ x ∈ pyStripL cs, x ∈ cs := by
  intro x hx
  exact (pyStripL_mid cs).sublist.subset hx

theorem noDoubleSpaceB_pyStripL {cs : List Char} (h : noDoubleSpaceB cs = true) :
    noDoubleSpaceB (pyStripL cs) = true := by
  obtain ⟨s, t, hst⟩ := pyStripL_mid cs
  rw [← hst, List.append_assoc] at h
  exact noDoubleSpaceB_append_left _ _ (noDoubleSpaceB_suffix s _ h)

theorem noTripleNLB_pyStripL {cs : List Char} (h : noTripleNLB cs = true) :
    noTripleNLB (pyStripL cs) = true := by
  obtain ⟨s, t, hst⟩ := pyStripL_mid cs
  rw [← hst, List.append_assoc] at h
  exact noTripleNLB_append_left _ _ (noTripleNLB_suffix s _ h)

theorem fixCR_step (c : Char) (rest : List Char) (hc : c ≠ '\r') :
    fixCR (c :: rest) = c :: fixCR rest := by
  cases rest with
  | nil => simp [fixCR, hc]
  | cons d r2 => simp [fixCR, hc]

theorem fixCR_no_cr : ∀ cs : List Char, '\r' ∉ fixCR cs := by
  intro cs
  induction cs using fixCR.induct with
  | case1 => simp [fixCR]
  | case2 rest ih =>
    rw [show fixCR ('\r' :: '\n' :: rest) = '\n' :: fixCR rest from by simp [fixCR]]
    intro hmem
    rcases List.mem_cons.mp hmem with h | h
    · exact absurd h (by decide)
    · exact ih h
  | case3 rest hne ih =>
    have hstep : fixCR ('\r' :: rest) = '\n' :: fixCR rest := by
      cases rest with
      | nil => simp [fixCR]
      | cons d r2 =>
        have hd : d ≠ '\n' := fun hcon => hne r2 (by rw [hcon])
        simp [fixCR, hd]
    rw [hstep]
    intro hmem
    rcases List.mem_cons.mp hmem with h | h
    · exact absurd h (by decide)
    · exact ih h
  | case4 c rest h1 h2 ih =>
    rw [fixCR_step c rest (fun hcon => h2 hcon)]
    intro hmem
    rcases List.mem_cons.mp hmem with h | h
    · exact h2 h.symm
    · exact ih h

theorem fixCR_eq_self : ∀ cs : List Char, '\r' ∉ cs → fixCR cs = cs := by
  intro cs
  induction cs with
  | nil => intro _; rfl
  | cons c rest ih =>
    intro h
    have hc : c ≠ '\r' := fun hcon => h (by rw [hcon]; exact List.mem_cons_self _ _)
    rw [fixCR_step c rest hc, ih (fun hm => h (List.mem_cons_of_mem c hm))]

theorem collapseSTGo_step_st (c : Char) (rest : List Char)
    (hst : (c = ' ' || c = '\t') = true) :
    collapseSTGo (c :: rest) true = collapseSTGo rest true ∧
    collapseSTGo (c :: rest) false = ' ' :: collapseSTGo rest true := by
  constructor <;> simp [collapseSTGo, hst]

theorem collapseSTGo_step_not (c : Char) (rest : List Char) (flag : Bool)
    (hst : (c = ' ' || c = '\t') = false) :
    collapseSTGo (c :: rest) flag = c :: collapseSTGo rest false := by
  simp [collapseSTGo, hst]

theorem collapseSTGo_subset :
    ∀ (cs : List Char) (flag : Bool) (x : Char), x ∈ collapseSTGo cs flag →
      x = ' ' ∨ x ∈ cs := by
  intro cs
  induction cs with
  | nil => intro flag x hx; simp [collapseSTGo] at hx
  | cons c rest ih =>
    intro flag x hx
    by_cases hst : (c = ' ' || c = '\t') = true
    · cases flag with
      | true =>
        rw [(collapseSTGo_step_st c rest hst).1] at hx
        rcases ih true x hx with h | h
        · exact Or.inl h
        · exact Or.inr (List.mem_cons_of_mem c h)
      | false =>
        rw [(collapseSTGo_step_st c rest hst).2] at hx
        rcases List.mem_cons.mp hx with h | h
        · exact Or.inl h
        · rcases ih true x h with h2 | h2
          · exact Or.inl h2
          · exact Or.inr (List.mem_cons_of_mem c h2)
    · have hst2 : (c = ' ' || c = '\t') = false := by simpa using hst
      rw [collapseSTGo_step_not c rest flag hst2] at hx
      rcases List.mem_cons.mp hx with h | h
      · exact Or.inr (h ▸ List.mem_cons_self c rest)
      · rcases ih false x h with h2 | h2
        · exact Or.inl h2
        · exact Or.inr (List.mem_cons_of_mem c h2)

theorem collapseSTGo_no_tab : ∀ (cs : List Char) (flag : Bool),
    '\t' ∉ collapseSTGo cs flag := by
  intro cs
  induction cs with
  | nil => intro flag hx; simp [collapseSTGo] at hx
  | cons c rest ih =>
    intro flag hx
    by_cases hst : (c = ' ' || c = '\t') = true
    · cases flag with
      | true =>
        rw [(collapseSTGo_step_st c rest hst).1] at hx
        exact ih true hx
      | false =>
        rw [(collapseSTGo_step_st c rest hst).2] at hx
        rcases List.mem_cons.mp hx with h | h
        · exact absurd h (by decide)
        · exact ih true h
    · have hst2 : (c = ' ' || c = '\t') = false := by simpa using hst
      rw [collapseSTGo_step_not c rest flag hst2] at hx
      rcases List.mem_cons.mp hx with h | h
      · rw [h] at hst2
        simp at hst2
      · exact ih false h

theorem collapseSTGo_noDouble :
    ∀ cs : List Char,
      noDoubleSpaceB (collapseSTGo cs true) = true ∧
      (∀ x ∈ (collapseSTGo cs true).head?, x ≠ ' ') ∧
      noDoubleSpaceB (collapseSTGo cs false) = true := by
  intro cs
  induction cs with
  | nil => exact ⟨rfl, by simp [collapseSTGo], rfl⟩
  | cons c rest ih =>
    by_cases hst : (c = ' ' || c = '\t') = true
    · obtain ⟨hT, hF⟩ := collapseSTGo_step_st c rest hst
      refine ⟨?_, ?_, ?_⟩
      · rw [hT]; exact ih.1
      · rw [hT]; exact ih.2.1
      · rw [hF]
        refine (noDoubleSpaceB_cons_iff _ _).mpr ⟨?_, ih.1⟩
        rintro ⟨_, hh⟩
        exact ih.2.1 ' ' hh rfl
    · have hst2 : (c = ' ' || c = '\t') = false := by simpa using hst
      have hc : c ≠ ' ' := by
        intro hcon
        rw [hcon] at hst2
        simp at hst2
      refine ⟨?_, ?_, ?_⟩
      · rw [collapseSTGo_step_not c rest true hst2]
        exact (noDoubleSpaceB_cons_iff _ _).mpr ⟨fun hcon => hc hcon.1, ih.2.2⟩
      · rw [collapseSTGo_step_not c rest true hst2]
        intro x hx
        have : x = c := Option.some.inj hx.symm
        rw [this]
        exact hc
      · rw [collapseSTGo_step_not c rest false hst2]
        exact (noDoubleSpaceB_cons_iff _ _).mpr ⟨fun hcon => hc hcon.1, ih.2.2⟩

theorem collapseSTGo_id :
    ∀ cs : List Char, '\t' ∉ cs → noDoubleSpaceB cs = true →
      (collapseSTGo cs false = cs ∧
        ((∀ x ∈ cs.head?, x ≠ ' ') → collapseSTGo cs true = cs)) := by
  intro cs
  induction cs with
  | nil => intro _ _; exact ⟨rfl, fun _ => rfl⟩
  | cons c rest ih =>
    intro htab hnd
    have hctab : c ≠ '\t' := fun hcon => htab (hcon ▸ List.mem_cons_self c rest)
    have hrtab : '\t' ∉ rest := fun hm => htab (List.mem_cons_of_mem c hm)
    obtain ⟨hcond, htail⟩ := (noDoubleSpaceB_cons_iff c rest).mp hnd
    have ihr := ih hrtab htail
    by_cases hsp : c = ' '
    · have hst : (c = ' ' || c = '\t') = true := by simp [hsp]
      have hrh : ∀ x ∈ rest.head?, x ≠ ' ' := by
        intro x hx hcon
        exact hcond ⟨hsp, by rw [← hcon]; exact hx⟩
      constructor
      · rw [(collapseSTGo_step_st c rest hst).2, ihr.2 hrh, hsp]
      · intro hh
        exact absurd hsp (hh c rfl)
    · have hst : (c = ' ' || c = '\t') = false := by
        simp [hsp, hctab]
      constructor
      · rw [collapseSTGo_step_not c rest false hst, ihr.1]
      · intro _
        rw [collapseSTGo_step_not c rest true hst, ihr.1]

theorem clampNLGo_step_nl_ge (rest : List Char) (k : Nat) (hk : 2 ≤ k) :
    clampNLGo ('\n' :: rest) k = clampNLGo rest k := by
  simp [clampNLGo, hk]

theorem clampNLGo_step_nl_lt (rest : List Char) (k : Nat) (hk : ¬2 ≤ k) :
    clampNLGo ('\n' :: rest) k = '\n' :: clampNLGo rest (k + 1) := by
  simp [clampNLGo, hk]

theorem clampNLGo_step_not (c : Char) (rest : List Char) (k : Nat) (hc : c ≠ '\n') :
    clampNLGo (c :: rest) k = c :: clampNLGo rest 0 := by
  simp [clampNLGo, hc]

theorem clampNLGo_subset :
    ∀ (cs : List Char) (k : Nat) (x : Char), x ∈ clampNLGo cs k → x ∈ cs := by
  intro cs
  induction cs with
  | nil => intro k x hx; simp [clampNLGo] at hx
  | cons c rest ih =>
    intro k x hx
    by_cases hc : c = '\n'
    · subst hc
      by_cases hk : 2 ≤ k
      · rw [clampNLGo_step_nl_ge rest k hk] at hx
        exact List.mem_cons_of_mem _ (ih k x hx)
      · rw [clampNLGo_step_nl_lt rest k hk] at hx
        rcases List.mem_cons.mp hx with h | h
        · exact h ▸ List.mem_cons_self _ rest
        · exact List.mem_cons_of_mem _ (ih (k + 1) x h)
    · rw [clampNLGo_step_not c rest k hc] at hx
      rcases List.mem_cons.mp hx with h | h
      · exact h ▸ List.mem_cons_self c rest
      · exact List.mem_cons_of_mem c (ih 0 x h)

theorem startsN_cons_iff (l : List Char) :
    ∀ c, startsN (c :: l) = true ↔ c = '\n' := by
  intro c
  by_cases hc : c = '\n'
  · subst hc; simp [startsN]
  · simp [startsN, hc]

theorem startsNN_nl_cons (l : List Char) : startsNN ('\n' :: l) = startsN l := by
  cases l with
  | nil => rfl
  | cons d r =>
    by_cases hd : d = '\n'
    · subst hd; simp [startsNN, startsN]
    · simp [startsNN, startsN, hd]

theorem startsNN_head (l : List Char) (h : startsNN l = false) :
    ¬(l.head? = some '\n' ∧ l.tail.head? = some '\n') := by
  rintro ⟨h1, h2⟩
  cases l with
  | nil => simp at h1
  | cons a t =>
    have ha : a = '\n' := Option.some.inj h1
    cases t with
    | nil => simp at h2
    | cons b r =>
      have hb : b = '\n' := Option.some.inj h2
      subst ha; subst hb
      simp [startsNN] at h

theorem startsNN_true_head (l : List Char) (h : startsNN l = true) :
    l.head? = some '\n' ∧ l.tail.head? = some '\n' := by
  cases l with
  | nil => simp [startsNN] at h
  | cons a t =>
    cases t with
    | nil =>
      by_cases ha : a = '\n' <;> simp [startsNN, ha] at h
    | cons b r =>
      by_cases ha : a = '\n'
      · by_cases hb : b = '\n'
        · subst ha; subst hb; exact ⟨rfl, rfl⟩
        · subst ha; simp [startsNN, hb] at h
      · simp [startsNN, ha] at h

theorem clampNLGo_startsN :
    ∀ (cs : List Char) (k : Nat), 2 ≤ k → startsN (clampNLGo cs k) = false := by
  intro cs
  induction cs with
  | nil => intro k _; rfl
  | cons c rest ih =>
    intro k hk
    by_cases hc : c = '\n'
    · subst hc
      rw [clampNLGo_step_nl_ge rest k hk]
      exact ih k hk
    · rw [clampNLGo_step_not c rest k hc]
      simp [startsN, hc]

theorem clampNLGo_startsNN :
    ∀ (cs : List Char) (k : Nat), 1 ≤ k → startsNN (clampNLGo cs k) = false := by
  intro cs
  induction cs with
  | nil => intro k _; rfl
  | cons c rest ih =>
    intro k hk
    by_cases hc : c = '\n'
    · subst hc
      by_cases hk2 : 2 ≤ k
      · rw [clampNLGo_step_nl_ge rest k hk2]
        exact ih k hk
      · rw [clampNLGo_step_nl_lt rest k hk2, startsNN_nl_cons]
        exact clampNLGo_startsN rest (k + 1) (by omega)
    · rw [clampNLGo_step_not c rest k hc]
      cases h2 : clampNLGo rest 0 with
      | nil => simp [startsNN, hc]
      | cons d r =>
        by_cases hd : d = '\n' <;> simp [startsNN, hc, hd]

theorem clampNLGo_noTriple :
    ∀ (cs : List Char) (k : Nat), noTripleNLB (clampNLGo cs k) = true := by
  intro cs
  induction cs with
  | nil => intro k; rfl
  | cons c rest ih =>
    intro k
    by_cases hc : c = '\n'
    · subst hc
      by_cases hk : 2 ≤ k
      · rw [clampNLGo_step_nl_ge rest k hk]
        exact ih k
      · rw [clampNLGo_step_nl_lt rest k hk]
        refine (noTripleNLB_cons_iff _ _).mpr ⟨?_, ih (k + 1)⟩
        rintro ⟨_, hh, ht⟩
        exact startsNN_head _ (clampNLGo_startsNN rest (k + 1) (by omega)) ⟨hh, ht⟩
    · rw [clampNLGo_step_not c rest k hc]
      exact (noTripleNLB_cons_iff _ _).mpr ⟨fun hcon => hc hcon.1, ih 0⟩

theorem clampNLGo_id :
    ∀ cs : List Char, noTripleNLB cs = true →
      (clampNLGo cs 0 = cs ∧
        (startsNN cs = false → clampNLGo cs 1 = cs) ∧
        (startsN cs = false → clampNLGo cs 2 = cs)) := by
  intro cs
  induction cs with
  | nil => intro _; exact ⟨rfl, fun _ => rfl, fun _ => rfl⟩
  | cons c rest ih =>
    intro hnt
    obtain ⟨hcond, htail⟩ := (noTripleNLB_cons_iff c rest).mp hnt
    have ihr := ih htail
    by_cases hc : c = '\n'
    · subst hc
      have hsnn : startsNN rest = false := by
        cases hx : startsNN rest with
        | false => rfl
        | true =>
          obtain ⟨h1, h2⟩ := startsNN_true_head rest hx
          exact absurd ⟨rfl, h1, h2⟩ hcond
      refine ⟨?_, ?_, ?_⟩
      · rw [clampNLGo_step_nl_lt rest 0 (by omega), ihr.2.1 hsnn]
      · intro hnn
        rw [startsNN_nl_cons] at hnn
        rw [clampNLGo_step_nl_lt rest 1 (by omega), ihr.2.2 hnn]
      · intro hn
        rw [show startsN ('\n' :: rest) = true from by simp [startsN]] at hn
        exact absurd hn (by decide)
    · refine ⟨?_, ?_, ?_⟩
      · rw [clampNLGo_step_not c rest 0 hc, ihr.1]
      · intro _
        rw [clampNLGo_step_not c rest 1 hc, ihr.1]
      · intro _
        rw [clampNLGo_step_not c rest 2 hc, ihr.1]

theorem clampNLGo_head0 (cs : List Char)
    (h : (clampNLGo cs 0).head? = some ' ') : cs.head? = some ' ' := by
  cases cs with
  | nil => simp [clampNLGo] at h
  | cons c rest =>
    by_cases hc : c = '\n'
    · subst hc
      rw [clampNLGo_step_nl_lt rest 0 (by omega)] at h
      have : '\n' = ' ' := Option.some.inj h
      exact absurd this (by decide)
    · rw [clampNLGo_step_not c rest 0 hc] at h
      have : c = ' ' := Option.some.inj h
      rw [this]
      rfl

theorem clampNLGo_noDouble :
    ∀ cs : List Char, noDoubleSpaceB cs = true →
      ∀ k, noDoubleSpaceB (clampNLGo cs k) = true := by
  intro cs
  induction cs with
  | nil => intro _ k; rfl
  | cons c rest ih =>
    intro hnd k
    obtain ⟨hcond, htail⟩ := (noDoubleSpaceB_cons_iff c rest).mp hnd
    by_cases hc : c = '\n'
    · subst hc
      by_cases hk : 2 ≤ k
      · rw [clampNLGo_step_nl_ge rest k hk]
        exact ih htail k
      · rw [clampNLGo_step_nl_lt rest k hk]
        refine (noDoubleSpaceB_cons_iff _ _).mpr ⟨?_, ih htail (k + 1)⟩
        rintro ⟨h1, _⟩
        exact absurd h1 (by decide)
    · rw [clampNLGo_step_not c rest k hc]
      refine (noDoubleSpaceB_cons_iff _ _).mpr ⟨?_, ih htail 0⟩
      rintro ⟨h1, h2⟩
      exact hcond ⟨h1, clampNLGo_head0 rest h2⟩

/-- The whitespace normalizer's output satisfies every fixed-point
property: no carriage returns or tabs, no double spaces, no triple
newlines, stripped at both ends. -/
theorem normalizeWsL_NormOK (cs : List Char) : NormOK (normalizeWsL cs) := by
  unfold normalizeWsL NormOK
  refine ⟨?_, ?_, ?_, ?_, pyStripL_head, pyStripL_getLast⟩
  · intro hmem
    have h1 := pyStripL_subset _ hmem
    have h2 := clampNLGo_subset _ _ _ h1
    rcases collapseSTGo_subset _ _ _ h2 with h3 | h3
    · exact absurd h3 (by decide)
    · exact fixCR_no_cr cs h3
  · intro hmem
    have h1 := pyStripL_subset _ hmem
    have h2 := clampNLGo_subset _ _ _ h1
    exact collapseSTGo_no_tab _ _ h2
  · exact noDoubleSpaceB_pyStripL
      (clampNLGo_noDouble _ (collapseSTGo_noDouble (fixCR cs)).2.2 0)
  · exact noTripleNLB_pyStripL (clampNLGo_noTriple _ 0)

/-- A list with the fixed-point properties is unchanged by the whitespace
normalizer. -/
theorem normalizeWsL_eq_self {cs : List Char} (h : NormOK cs) : normalizeWsL cs = cs := by
  obtain ⟨hcr, htab, hnd, hnt, hh, hl⟩ := h
  unfold normalizeWsL
  rw [fixCR_eq_self cs hcr, (collapseSTGo_id cs htab hnd).1, (clampNLGo_id cs hnt).1]
  exact pyStripL_eq_self hh hl

/-- The whitespace normalizer is idempotent. -/
theorem normalizeWsL_idem (cs : List Char) :
    normalizeWsL (normalizeWsL cs) = normalizeWsL cs :=
  normalizeWsL_eq_self (normalizeWsL_NormOK cs)

theorem mem_of_head? {α : Type} {l : List α} {x : α} (h : l.head? = some x) : x ∈ l := by
  cases l with
  | nil => simp at h
  | cons c r =>
    have : c = x := Option.some.inj h
    exact this ▸ List.mem_cons_self c r

theorem noDoubleSpaceB_mid {g T : List Char} (hinf : g <:+: T)
    (hT : noDoubleSpaceB T = true) : noDoubleSpaceB g = true := by
  obtain ⟨s, t, hst⟩ := hinf
  rw [← hst, List.append_assoc] at hT
  exact noDoubleSpaceB_append_left _ _ (noDoubleSpaceB_suffix s _ hT)

theorem splitPred_step_sep (p : Char → Bool) (c : Char) (rest : List Char)
    (h : p c = true) : splitPred p (c :: rest) = [] :: splitPred p rest := by
  simp [splitPred, h]

theorem splitPred_ne_nil (p : Char → Bool) : ∀ cs : List Char, splitPred p cs ≠ [] := by
  intro cs
  cases cs with
  | nil => simp [splitPred]
  | cons c rest =>
    by_cases h : p c = true
    · rw [splitPred_step_sep p c rest h]
      simp
    · have h2 : p c = false := by simpa using h
      simp only [splitPred, h2]
      cases splitPred p rest <;> simp

theorem splitPred_step_not (p : Char → Bool) (c : Char) (rest : List Char)
    (h : p c = false) {g : List Char} {gs : List (List Char)}
    (hrest : splitPred p rest = g :: gs) :
    splitPred p (c :: rest) = (c :: g) :: gs := by
  simp only [splitPred, h, Bool.false_eq_true, if_false, hrest]

theorem splitPred_groups_no_p (p : Char → Bool) :
    ∀ (cs : List Char) (g : List Char), g ∈ splitPred p cs → ∀ c ∈ g, p c = false := by
  intro cs
  induction cs with
  | nil =>
    intro g hg c hc
    simp [splitPred] at hg
    rw [hg] at hc
    simp at hc
  | cons c0 rest ih =>
    intro g hg c hc
    by_cases h : p c0 = true
    · rw [splitPred_step_sep p c0 rest h] at hg
      rcases List.mem_cons.mp hg with h2 | h2
      · rw [h2] at hc; simp at hc
      · exact ih g h2 c hc
    · have h2 : p c0 = false := by simpa using h
      obtain ⟨g0, gs0, hrest⟩ :
          ∃ g0 gs0, splitPred p rest = g0 :: gs0 := by
        cases hx : splitPred p rest with
        | nil => exact absurd hx (splitPred_ne_nil p rest)
        | cons a b => exact ⟨a, b, rfl⟩
      rw [splitPred_step_not p c0 rest h2 hrest] at hg
      rcases List.mem_cons.mp hg with h3 | h3
      · rw [h3] at hc
        rcases List.mem_cons.mp hc with h4 | h4
        · rw [h4]; exact h2
        · exact ih g0 (hrest ▸ List.mem_cons_self g0 gs0) c h4
      · exact ih g (hrest ▸ List.mem_cons_of_mem g0 h3) c hc

theorem splitPred_head_prefix (p : Char → Bool) :
    ∀ (cs : List Char) (g : List Char), (splitPred p cs).head? = some g → g <+: cs := by
  intro cs
  induction cs with
  | nil =>
    intro g hg
    have : ([] : List Char) = g := Option.some.inj hg
    rw [← this]
  | cons c0 rest ih =>
    intro g hg
    by_cases h : p c0 = true
    · rw [splitPred_step_sep p c0 rest h] at hg
      have : ([] : List Char) = g := Option.some.inj hg
      rw [← this]
      exact List.nil_prefix
    · have h2 : p c0 = false := by simpa using h
      obtain ⟨g0, gs0, hrest⟩ :
          ∃ g0 gs0, splitPred p rest = g0 :: gs0 := by
        cases hx : splitPred p rest with
        | nil => exact absurd hx (splitPred_ne_nil p rest)
        | cons a b => exact ⟨a, b, rfl⟩
      rw [splitPred_step_not p c0 rest h2 hrest] at hg
      have : c0 :: g0 = g := Option.some.inj hg
      rw [← this]
      obtain ⟨t, ht⟩ := ih g0 (by rw [hrest]; rfl)
      exact ⟨t, by rw [List.cons_append, ht]⟩

theorem splitPred_mid (p : Char → Bool) :
    ∀ (cs : List Char) (g : List Char), g ∈ splitPred p cs → g <:+: cs := by
  intro cs
  induction cs with
  | nil =>
    intro g hg
    simp [splitPred] at hg
    rw [hg]
  | cons c0 rest ih =>
    intro g hg
    by_cases h : p c0 = true
    · rw [splitPred_step_sep p c0 rest h] at hg
      rcases List.mem_cons.mp hg with h2 | h2
      · rw [h2]; exact List.nil_infix
      · exact List.IsInfix.trans (ih g h2) (List.infix_cons (List.infix_refl rest))
    · have h2 : p c0 = false := by simpa using h
      obtain ⟨g0, gs0, hrest⟩ :
          ∃ g0 gs0, splitPred p rest = g0 :: gs0 := by
        cases hx : splitPred p rest with
        | nil => exact absurd hx (splitPred_ne_nil p rest)
        | cons a b => exact ⟨a, b, rfl⟩
      rw [splitPred_step_not p c0 rest h2 hrest] at hg
      rcases List.mem_cons.mp hg with h3 | h3
      · rw [h3]
        obtain ⟨t, ht⟩ := splitPred_head_prefix p rest g0 (by rw [hrest]; rfl)
        exact List.IsPrefix.isInfix ⟨t, by rw [List.cons_append, ht]⟩
      · exact List.IsInfix.trans (ih g (hrest ▸ List.mem_cons_of_mem g0 h3))
          (List.infix_cons (List.infix_refl rest))

theorem splitPred_sepfree (p : Char → Bool) :
    ∀ cs : List Char, (∀ c ∈ cs, p c = false) → splitPred p cs = [cs] := by
  intro cs
  induction cs with
  | nil => intro _; rfl
  | cons c0 rest ih =>
    intro h
    have h0 : p c0 = false := h c0 (List.mem_cons_self c0 rest)
    have hrest : splitPred p rest = [rest] :=
      ih fun c hc => h c (List.mem_cons_of_mem c0 hc)
    rw [splitPred_step_not p c0 rest h0 hrest]

theorem splitPred_sepfree_append (p : Char → Bool) (c : Char) (b : List Char)
    (hc : p c = true) :
    ∀ a : List Char, (∀ x ∈ a, p x = false) →
      splitPred p (a ++ c :: b) = a :: splitPred p b := by
  intro a
  induction a with
  | nil =>
    intro _
    rw [List.nil_append, splitPred_step_sep p c b hc]
  | cons x r ih =>
    intro h
    have hx : p x = false := h x (List.mem_cons_self x r)
    have hr := ih fun y hy => h y (List.mem_cons_of_mem x hy)
    rw [List.cons_append, splitPred_step_not p x (r ++ c :: b) hx hr]

theorem noTripleNLB_of_no_nl :
    ∀ g : List Char, (∀ c ∈ g, c ≠ '\n') → noTripleNLB g = true := by
  intro g
  induction g with
  | nil => intro _; rfl
  | cons x r ih =>
    intro h
    refine (noTripleNLB_cons_iff x r).mpr ⟨?_, ih fun c hc => h c (List.mem_cons_of_mem x hc)⟩
    rintro ⟨hx, _⟩
    exact h x (List.mem_cons_self x r) hx

theorem noDoubleSpaceB_append :
    ∀ (a b : List Char), noDoubleSpaceB a = true → noDoubleSpaceB b = true →
      (∀ x ∈ a.getLast?, ∀ y ∈ b.head?, ¬(x = ' ' ∧ y = ' ')) →
      noDoubleSpaceB (a ++ b) = true := by
  intro a
  induction a with
  | nil => intro b _ hb _; exact hb
  | cons x r ih =>
    intro b ha hb hab
    obtain ⟨hc, hr⟩ := (noDoubleSpaceB_cons_iff x r).mp ha
    cases r with
    | nil =>
      rw [List.cons_append, List.nil_append]
      refine (noDoubleSpaceB_cons_iff x b).mpr ⟨?_, hb⟩
      rintro ⟨hx, hy⟩
      exact hab x rfl ' ' hy ⟨hx, rfl⟩
    | cons y r2 =>
      rw [List.cons_append]
      refine (noDoubleSpaceB_cons_iff _ _).mpr ⟨?_, ?_⟩
      · rintro ⟨hx, hy⟩
        rw [List.cons_append] at hy
        exact hc ⟨hx, by simpa using hy⟩
      · refine ih b hr hb ?_
        intro u hu v hv
        refine hab u ?_ v hv
        rw [List.getLast?_cons_cons]
        exact hu

theorem noTripleNLB_nlfree_append :
    ∀ (g b : List Char), (∀ c ∈ g, c ≠ '\n') → noTripleNLB b = true →
      noTripleNLB (g ++ b) = true := by
  intro g
  induction g with
  | nil => intro b _ hb; exact hb
  | cons x r ih =>
    intro b hg hb
    rw [List.cons_append]
    refine (noTripleNLB_cons_iff _ _).mpr
      ⟨?_, ih b (fun c hc => hg c (List.mem_cons_of_mem x hc)) hb⟩
    rintro ⟨hx, _⟩
    exact hg x (List.mem_cons_self x r) hx

theorem joinSep_cons2 (sep g g2 : List Char) (gs : List (List Char)) :
    joinSep sep (g :: g2 :: gs) = g ++ sep ++ joinSep sep (g2 :: gs) := rfl

theorem joinSep_subset (sep : List Char) :
    ∀ (L : List (List Char)) (x : Char), x ∈ joinSep sep L →
      x ∈ sep ∨ ∃ l ∈ L, x ∈ l := by
  intro L
  induction L with
  | nil => intro x hx; simp [joinSep] at hx
  | cons g gs ih =>
    intro x hx
    cases gs with
    | nil =>
      exact Or.inr ⟨g, List.mem_cons_self g [], hx⟩
    | cons g2 gs2 =>
      rw [joinSep_cons2] at hx
      rcases List.mem_append.mp hx with h | h
      · rcases List.mem_append.mp h with h2 | h2
        · exact Or.inr ⟨g, List.mem_cons_self g _, h2⟩
        · exact Or.inl h2
      · rcases ih x h with h2 | ⟨l, hl, hxl⟩
        · exact Or.inl h2
        · exact Or.inr ⟨l, List.mem_cons_of_mem g hl, hxl⟩

theorem joinSep_head (sep : List Char) :
    ∀ (g : List Char) (gs : List (List Char)), g ≠ [] →
      (joinSep sep (g :: gs)).head? = g.head? := by
  intro g gs hg
  cases gs with
  | nil => rfl
  | cons g2 gs2 =>
    rw [joinSep_cons2]
    cases g with
    | nil => exact absurd rfl hg
    | cons x r => rfl

theorem joinNN_props :
    ∀ L : List (List Char),
      (∀ l ∈ L, l ≠ [] ∧ (∀ c ∈ l, c ≠ '\n') ∧ noDoubleSpaceB l = true) →
      noDoubleSpaceB (joinSep ['\n', '\n'] L) = true ∧
      noTripleNLB (joinSep ['\n', '\n'] L) = true ∧
      (∀ x ∈ (joinSep ['\n', '\n'] L).head?, x ≠ '\n') := by
  intro L
  induction L with
  | nil => exact fun _ => ⟨rfl, rfl, by simp [joinSep]⟩
  | cons g gs ih =>
    intro hL
    have hg := hL g (List.mem_cons_self g gs)
    cases gs with
    | nil =>
      refine ⟨hg.2.2, noTripleNLB_of_no_nl g hg.2.1, ?_⟩
      intro x hx
      exact hg.2.1 x (mem_of_head? hx)
    | cons g2 gs2 =>
      have ihr := ih fun l hl => hL l (List.mem_cons_of_mem g hl)
      have hJhead : ∀ x ∈ (joinSep ['\n', '\n'] (g2 :: gs2)).head?, x ≠ '\n' := ihr.2.2
      have hnn : ('\n' :: '\n' :: joinSep ['\n', '\n'] (g2 :: gs2)) =
          ['\n', '\n'] ++ joinSep ['\n', '\n'] (g2 :: gs2) := rfl
      refine ⟨?_, ?_, ?_⟩
      · rw [joinSep_cons2, List.append_assoc, ← hnn]
        refine noDoubleSpaceB_append g _ hg.2.2 ?_ ?_
        · refine (noDoubleSpaceB_cons_iff _ _).mpr ⟨?_, ?_⟩
          · rintro ⟨h1, _⟩; exact absurd h1 (by decide)
          · refine (noDoubleSpaceB_cons_iff _ _).mpr ⟨?_, ihr.1⟩
            rintro ⟨h1, _⟩; exact absurd h1 (by decide)
        · intro u _ v hv
          rintro ⟨_, hv2⟩
          have : v = '\n' := (Option.some.inj hv).symm
          rw [this] at hv2
          exact absurd hv2 (by decide)
      · rw [joinSep_cons2, List.append_assoc, ← hnn]
        refine noTripleNLB_nlfree_append g _ hg.2.1 ?_
        refine (noTripleNLB_cons_iff _ _).mpr ⟨?_, ?_⟩
        · rintro ⟨_, _, h3⟩
          exact hJhead '\n' (by simpa using h3) rfl
        · refine (noTripleNLB_cons_iff _ _).mpr ⟨?_, ihr.2.1⟩
          rintro ⟨_, h2, _⟩
          exact hJhead '\n' h2 rfl
      · intro y hy
        rw [joinSep_head ['\n', '\n'] g (g2 :: gs2) hg.1] at hy
        exact hg.2.1 y (mem_of_head? hy)

theorem joinSep_ne_nil (sep : List Char) :
    ∀ L : List (List Char), L ≠ [] → (∀ l ∈ L, l ≠ []) → joinSep sep L ≠ [] := by
  intro L
  cases L with
  | nil => intro h _; exact absurd rfl h
  | cons g gs =>
    intro _ hL
    cases gs with
    | nil => exact hL g (List.mem_cons_self g [])
    | cons g2 gs2 =>
      rw [joinSep_cons2, List.append_assoc]
      exact List.append_ne_nil_of_left_ne_nil (hL g (List.mem_cons_self g _)) _

theorem joinSep_getLast (sep : List Char) :
    ∀ L : List (List Char), L ≠ [] → (∀ l ∈ L, l ≠ []) →
      ∃ l ∈ L, (joinSep sep L).getLast? = l.getLast? := by
  intro L
  induction L with
  | nil => intro h _; exact absurd rfl h
  | cons g gs ih =>
    intro _ hL
    cases gs with
    | nil => exact ⟨g, List.mem_cons_self g [], rfl⟩
    | cons g2 gs2 =>
      obtain ⟨l, hl, hlast⟩ := ih (by simp) fun l hl => hL l (List.mem_cons_of_mem g hl)
      refine ⟨l, List.mem_cons_of_mem g hl, ?_⟩
      rw [joinSep_cons2, List.append_assoc, List.getLast?_append, List.getLast?_append, hlast]
      have hlne : l ≠ [] := hL l (List.mem_cons_of_mem g hl)
      cases hx : l.getLast? with
      | none => exact absurd (List.getLast?_eq_none_iff.mp hx) hlne
      | some a => rfl

theorem extractLines_LineOK (T : List Char) (hT : NormOK T) :
    ∀ ln ∈ extractLines T, LineOK ln := by
  intro ln hln
  have hln2 : ln ∈ ((splitPred (fun c => c = '\n') T).map pyStripL).filter
      (fun g => !g.isEmpty) := hln
  have h1 : ln ∈ (splitPred (fun c => c = '\n') T).map pyStripL :=
    List.mem_of_mem_filter hln2
  have h2 := @List.of_mem_filter (List Char) (fun g => !g.isEmpty) ln
    ((splitPred (fun c => c = '\n') T).map pyStripL) hln2
  obtain ⟨g, hg, rfl⟩ := List.mem_map.mp h1
  obtain ⟨hcr, htab, hnd, _, _, _⟩ := hT
  have hinf := splitPred_mid _ T g hg
  refine ⟨?_, ?_, ?_, ?_, ?_, pyStripL_head, pyStripL_getLast⟩
  · intro hcon
    rw [hcon] at h2
    simp at h2
  · intro hx
    exact hcr (hinf.sublist.subset (pyStripL_subset _ hx))
  · intro hx
    exact htab (hinf.sublist.subset (pyStripL_subset _ hx))
  · intro hx
    have := splitPred_groups_no_p _ T g hg '\n' (pyStripL_subset _ hx)
    simp at this
  · exact noDoubleSpaceB_pyStripL (noDoubleSpaceB_mid hinf hnd)

theorem extractLines_step (g J : List Char) (hsf : ∀ c ∈ g, c ≠ '\n')
    (hst : pyStripL g = g) (hne : g ≠ []) :
    extractLines (g ++ '\n' :: '\n' :: J) = g :: extractLines J := by
  unfold extractLines
  have e1 : splitPred (fun c => c = '\n') (g ++ '\n' :: '\n' :: J) =
      g :: [] :: splitPred (fun c => c = '\n') J := by
    rw [splitPred_sepfree_append _ '\n' ('\n' :: J) (by decide) g
        (fun c hc => decide_eq_false (hsf c hc)),
      splitPred_step_sep _ '\n' J (by decide)]
  rw [e1, List.map_cons, List.map_cons, hst]
  have hgE : (!g.isEmpty) = true := by
    cases g with
    | nil => exact absurd rfl hne
    | cons a b => rfl
  simp only [List.filter_cons, hgE, if_true]
  have hE2 : (!(pyStripL ([] : List Char)).isEmpty) = false := rfl
  rw [hE2]
  simp

theorem extractLines_joinNN :
    ∀ L : List (List Char), L ≠ [] →
      (∀ l ∈ L, l ≠ [] ∧ (∀ c ∈ l, c ≠ '\n') ∧ pyStripL l = l) →
      extractLines (joinSep ['\n', '\n'] L) = L := by
  intro L
  induction L with
  | nil => intro h _; exact absurd rfl h
  | cons g gs ih =>
    intro _ hL
    have hg := hL g (List.mem_cons_self g gs)
    cases gs with
    | nil =>
      show extractLines g = [g]
      unfold extractLines
      rw [splitPred_sepfree _ g (fun c hc => decide_eq_false (hg.2.1 c hc)),
        List.map_cons, hg.2.2]
      have hgE : (!g.isEmpty) = true := by
        cases hgc : g with
        | nil => exact absurd hgc hg.1
        | cons a b => rfl
      simp [hgE]
    | cons g2 gs2 =>
      have ihr := ih (by simp) (fun l hl => hL l (List.mem_cons_of_mem g hl))
      have hJ : joinSep ['\n', '\n'] (g :: g2 :: gs2) =
          g ++ '\n' :: '\n' :: joinSep ['\n', '\n'] (g2 :: gs2) := by
        rw [joinSep_cons2, List.append_assoc]
        rfl
      rw [hJ, extractLines_step g _ hg.2.1 hg.2.2 hg.1, ihr]

theorem joinFiltered_NormOK (T : List Char) (hT : NormOK T) :
    NormOK (joinFiltered T) := by
  unfold joinFiltered
  have hLprop : ∀ l ∈ (extractLines T).filter (fun ln => !looks_like_noise ln), LineOK l :=
    fun l hl => extractLines_LineOK T hT l (List.mem_of_mem_filter hl)
  have hjp := joinNN_props ((extractLines T).filter (fun ln => !looks_like_noise ln))
    (fun l hl => ⟨(hLprop l hl).1,
      fun c hc hcon => (hLprop l hl).2.2.2.1 (hcon ▸ hc), (hLprop l hl).2.2.2.2.1⟩)
  refine ⟨?_, ?_, ?_, ?_, pyStripL_head, pyStripL_getLast⟩
  · intro hx
    rcases joinSep_subset _ _ _ (pyStripL_subset _ hx) with hsep | ⟨l, hl, hxl⟩
    · exact absurd hsep (by decide)
    · exact (hLprop l hl).2.1 hxl
  · intro hx
    rcases joinSep_subset _ _ _ (pyStripL_subset _ hx) with hsep | ⟨l, hl, hxl⟩
    · exact absurd hsep (by decide)
    · exact (hLprop l hl).2.2.1 hxl
  · exact noDoubleSpaceB_pyStripL hjp.1
  · exact noTripleNLB_pyStripL hjp.2.1

theorem joinFiltered_id (T : List Char) (hT : NormOK T) (hne : joinFiltered T ≠ []) :
    joinFiltered (joinFiltered T) = joinFiltered T := by
  have hLprop : ∀ l ∈ (extractLines T).filter (fun ln => !looks_like_noise ln), LineOK l :=
    fun l hl => extractLines_LineOK T hT l (List.mem_of_mem_filter hl)
  have hLne : (extractLines T).filter (fun ln => !looks_like_noise ln) ≠ [] := by
    intro hcon
    apply hne
    unfold joinFiltered
    rw [hcon]
    rfl
  have hlne' : ∀ l ∈ (extractLines T).filter (fun ln => !looks_like_noise ln), l ≠ [] :=
    fun l hl => (hLprop l hl).1
  have hstrip :
      pyStripL (joinSep ['\n', '\n'] ((extractLines T).filter (fun ln => !looks_like_noise ln))) =
        joinSep ['\n', '\n'] ((extractLines T).filter (fun ln => !looks_like_noise ln)) := by
    apply pyStripL_eq_self
    · cases hLc : (extractLines T).filter (fun ln => !looks_like_noise ln) with
      | nil => exact absurd hLc hLne
      | cons g gs =>
        have hgmem : g ∈ (extractLines T).filter (fun ln => !looks_like_noise ln) := by
          rw [hLc]; exact List.mem_cons_self g gs
        rw [joinSep_head ['\n', '\n'] g gs ((hLprop g hgmem).1)]
        exact (hLprop g hgmem).2.2.2.2.2.1
    · obtain ⟨l, hl, hlast⟩ := joinSep_getLast ['\n', '\n'] _ hLne hlne'
      rw [hlast]
      exact (hLprop l hl).2.2.2.2.2.2
  have hfix : (extractLines T).filter (fun ln => !looks_like_noise ln) =
      ((extractLines T).filter (fun ln => !looks_like_noise ln)).filter
        (fun ln => !looks_like_noise ln) :=
    (List.filter_eq_self.mpr (fun l hl =>
      @List.of_mem_filter (List Char) (fun ln => !looks_like_noise ln) l
        (extractLines T) hl)).symm
  conv_lhs => rw [joinFiltered, joinFiltered, hstrip,
    extractLines_joinNN _ hLne (fun l hl => ⟨(hLprop l hl).1,
      fun c hc hcon => (hLprop l hl).2.2.2.1 (hcon ▸ hc),
      pyStripL_eq_self (hLprop l hl).2.2.2.2.2.1 (hLprop l hl).2.2.2.2.2.2⟩),
    ← hfix]
  rfl

theorem preClean_false (s : String) : preClean s false = normalizeWsL s.toList := rfl

theorem preClean_true (s : String) :
    preClean s true = joinFiltered (normalizeWsL s.toList) := rfl

theorem toList_mk (l : List Char) : (String.mk l).toList = l := rfl

theorem preClean_NormOK (content : String) (rn : Bool) : NormOK (preClean content rn) := by
  cases rn with
  | false => rw [preClean_false]; exact normalizeWsL_NormOK _
  | true => rw [preClean_true]; exact joinFiltered_NormOK _ (normalizeWsL_NormOK _)

theorem preClean_strip (content : String) (rn : Bool) :
    pyStripL (preClean content rn) = preClean content rn :=
  pyStripL_eq_self (preClean_NormOK content rn).2.2.2.2.1
    (preClean_NormOK content rn).2.2.2.2.2

theorem preClean_id (content : String) (rn : Bool) (hne : preClean content rn ≠ []) :
    preClean (String.mk (preClean content rn)) rn = preClean content rn := by
  cases rn with
  | false =>
    rw [preClean_false, toList_mk]
    exact normalizeWsL_eq_self (preClean_NormOK content false)
  | true =>
    rw [preClean_true, toList_mk, normalizeWsL_eq_self (preClean_NormOK content true)]
    rw [preClean_true]
    exact joinFiltered_id (normalizeWsL content.toList) (normalizeWsL_NormOK _)
      (by rw [← preClean_true]; exact hne)

theorem truncate_safely_id (cs : List Char) (mc : Nat) (h : cs.length ≤ mc) :
    truncate_safely cs mc = cs := by
  simp [truncate_safely, h]

theorem extract_ok_of (content : String) (max_chars : Int) (rn : Bool)
    (h1 : pyStripL content.toList ≠ [])
    (h2 : preClean content rn ≠ [])
    (h3 : (preClean content rn).length ≤ clampMaxChars max_chars) :
    extract_main_text content max_chars true rn =
      .ok (String.mk (preClean content rn)) (preClean content rn).length rn true
        (clampMaxChars max_chars) := by
  simp only [extract_main_text]
  rw [if_neg h1, if_neg h2]
  simp only [if_true]
  rw [truncate_safely_id _ _ h3]

/-- C9 counterexample. The claim fails on both counts. First, on the
spec example "Subscribe now!\nThis is a real sentence about weather
patterns today." with remove_noise=true the first line is NOT removed:
it is shorter than 25 characters and ends in a sentence terminator, so
_looks_like_noise keeps it, and the output contains both lines. Second,
extract_main_text is not idempotent in general: with keep_paragraphs=false
two kept lines are joined into one line by " ".join(text.split()); the
joined line here carries four pipe characters, so a second application
classifies it as noise and returns the empty-result shape instead of the
first output. -/
theorem C9_counterexample :
    extract_main_text
        "Subscribe now!\nThis is a real sentence about weather patterns today."
        12000 true true =
      .ok "Subscribe now!\n\nThis is a real sentence about weather patterns today."
        69 true true 12000 ∧
    extract_main_text "ab | cd | ef ghijklmnopq.\nzz | yy | xx wwvvuuttssrr."
        12000 false true =
      .ok "ab | cd | ef ghijklmnopq. zz | yy | xx wwvvuuttssrr." 52 true false 12000 ∧
    extract_main_text "ab | cd | ef ghijklmnopq. zz | yy | xx wwvvuuttssrr."
        12000 false true =
      .emptyNote true := by
  refine ⟨?_, ?_, ?_⟩ <;> with_unfolding_all rfl

/-- C9 (amended): extract_main_text is idempotent in the keep_paragraphs
case when its output is not truncated: for any content whose stripped form
and cleaned form are non-empty and whose cleaned form fits within the
clamped max_chars, the run returns the cleaned text unchanged, and running
extract_main_text again on that output with the same settings returns
exactly the same result. -/
theorem C9_idempotent_amended (content : String) (max_chars : Int) (rn : Bool)
    (h1 : pyStripL content.toList ≠ [])
    (h2 : preClean content rn ≠ [])
    (h3 : (preClean content rn).length ≤ clampMaxChars max_chars) :
    extract_main_text content max_chars true rn =
      .ok (String.mk (preClean content rn)) (preClean content rn).length rn true
        (clampMaxChars max_chars) ∧
    extract_main_text (String.mk (preClean content rn)) max_chars true rn =
      .ok (String.mk (preClean content rn)) (preClean content rn).length rn true
        (clampMaxChars max_chars) := by
  constructor
  · exact extract_ok_of content max_chars rn h1 h2 h3
  · have hid := preClean_id content rn h2
    have h1b : pyStripL (String.mk (preClean content rn)).toList ≠ [] := by
      rw [toList_mk, preClean_strip]
      exact h2
    have h2b : preClean (String.mk (preClean content rn)) rn ≠ [] := by
      rw [hid]
      exact h2
    have h3b : (preClean (String.mk (preClean content rn)) rn).length ≤
        clampMaxChars max_chars := by
      rw [hid]
      exact h3
    have hres := extract_ok_of (String.mk (preClean content rn)) max_chars rn h1b h2b h3b
    rw [hid] at hres
    exact hres

/-- Witness for C9 (amended) at the spec example input: the hypotheses hold
and the conclusion evaluates on the concrete strings. -/
theorem C9_idempotent_amended_witness :
    (pyStripL
        "Subscribe now!\nThis is a real sentence about weather patterns today.".toList
        ≠ [] ∧
      preClean
        "Subscribe now!\nThis is a real sentence about weather patterns today." true
        ≠ [] ∧
      (preClean
        "Subscribe now!\nThis is a real sentence about weather patterns today."
        true).length ≤ clampMaxChars 12000) ∧
    (extract_main_text
        "Subscribe now!\nThis is a real sentence about weather patterns today."
        12000 true true =
      .ok (String.mk (preClean
          "Subscribe now!\nThis is a real sentence about weather patterns today." true))
        (preClean
          "Subscribe now!\nThis is a real sentence about weather patterns today."
          true).length true true (clampMaxChars 12000) ∧
    extract_main_text
        (String.mk (preClean
          "Subscribe now!\nThis is a real sentence about weather patterns today." true))
        12000 true true =
      .ok (String.mk (preClean
          "Subscribe now!\nThis is a real sentence about weather patterns today." true))
        (preClean
          "Subscribe now!\nThis is a real sentence about weather patterns today."
          true).length true true (clampMaxChars 12000)) :=
  ⟨⟨by with_unfolding_all decide, by with_unfolding_all decide,
      by with_unfolding_all decide⟩,
    C9_idempotent_amended
      "Subscribe now!\nThis is a real sentence about weather patterns today."
      12000 true (by with_unfolding_all decide) (by with_unfolding_all decide)
      (by with_unfolding_all decide)⟩

end MCPDemo
